import Mathlib

/-!
Verification of the veaiops intelligent-threshold engine.

This file gives a shallow embedding, in Lean 4, of the algorithmic core of the
`veaiops` repository and proves (or refutes) a fixed list of claims about it.

Embedding conventions:
* Python floats are modelled by `ℚ` (all the arithmetic under scrutiny is exact
  rational arithmetic on the inputs we evaluate); `float('-inf')` is modelled
  by `⊥ : WithBot ℚ`.
* Fallible code is modelled with `Except Unit` (an uncaught Python exception
  is `.error ()`); code that swallows exceptions maps them to its documented
  fallback value.
* External libraries (numpy, scipy, dbscan1d, the `heapq` standard library)
  are embedded at their documented semantics; where a routine is inherently
  floating-point (`scipy.stats.pearsonr`) it is taken as an abstract total
  function parameter.
* Python's stable sorts (`list.sort`, `sorted`) are modelled by
  `List.insertionSort`, which has the same stability property.
-/

/- The claims are settled by evaluating the embedded code on concrete inputs
with `decide`; the kernel reduces `ℚ` arithmetic happily, but the elaborator
respects the `irreducible` marking of the core `Rat` operations, so those
markings are reset (an elaborator-only setting; kernel checking is
unaffected). -/
set_option allowUnsafeReducibility true

attribute [local semireducible] Rat.add Rat.mul Rat.sub Rat.div Rat.neg Rat.inv
  Rat.ofScientific

/-- Decidable equality of `Except` results, used to evaluate the embedded
fallible functions on concrete inputs. -/
instance {ε α : Type} [DecidableEq ε] [DecidableEq α] : DecidableEq (Except ε α) :=
  fun a b =>
    match a, b with
    | .ok x, .ok y => if h : x = y then .isTrue (by simp [h]) else .isFalse (by simp [h])
    | .error x, .error y => if h : x = y then .isTrue (by simp [h]) else .isFalse (by simp [h])
    | .ok _, .error _ => .isFalse (by simp)
    | .error _, .ok _ => .isFalse (by simp)

namespace Veaiops

/-- Direction of a threshold recommendation (`Literal["up", "down"]`). -/
inductive Direction where
  | up
  | down
deriving DecidableEq, Repr

/-! ### Small numeric helpers (numpy semantics) -/

/-- Maximum of a list of rationals (Python `max` on a non-empty list;
the `[]` case is junk, never reached where the source uses it). -/
def qmax : List ℚ → ℚ
  | [] => 0
  | x :: xs => xs.foldl max x

/-- Minimum of a list of rationals (Python `min` on a non-empty list). -/
def qmin : List ℚ → ℚ
  | [] => 0
  | x :: xs => xs.foldl min x

/-- Consecutive differences `l[i+1] - l[i]` of a list. -/
def consecutiveDiffs : List ℚ → List ℚ
  | [] => []
  | [_] => []
  | x :: y :: rest => (y - x) :: consecutiveDiffs (y :: rest)

/-- `np.median`: sort, middle element (odd length) or mean of the two middle
elements (even length).  `none` models the NaN produced on an empty input. -/
def np_median (l : List ℚ) : Option ℚ :=
  let s := l.insertionSort (· ≤ ·)
  let n := s.length
  if n = 0 then none
  else if n % 2 = 1 then s.get? (n / 2)
  else do
    let a ← s.get? (n / 2 - 1)
    let b ← s.get? (n / 2)
    pure ((a + b) / 2)

/-- `np.mean` (the empty case is junk; numpy yields NaN there and no claim
evaluates it). -/
def np_mean (l : List ℚ) : ℚ := l.sum / l.length

/-- `np.percentile(l, 95)`, linear-interpolation variant: with `s` sorted and
`pos = (n-1)·95/100`, the result is `s[⌊pos⌋] + frac·(s[⌊pos⌋+1] - s[⌊pos⌋])`. -/
def np_percentile95 (l : List ℚ) : ℚ :=
  let s := l.insertionSort (· ≤ ·)
  let n := s.length
  if n = 0 then 0
  else
    let pos : ℚ := (n - 1 : ℕ) * 95 / 100
    let i : ℕ := (Int.floor pos).toNat
    let frac : ℚ := pos - i
    let a := s.getD i 0
    let b := s.getD (i + 1) a
    a + frac * (b - a)

/-! ### Threshold blocks

`IntelligentThresholdConfig` and `MetricThresholdResult` live in
`veaiops/schema/base`, which is not part of the sources; their shape is fixed
by the specification's data model. -/

/-- Modelled from the spec: `IntelligentThresholdConfig` (module
`veaiops.schema.base`, not under the available sources) — one time-of-day
threshold block with `start_hour`, `end_hour`, optional `upper_bound` /
`lower_bound` and an integer `window_size`. -/
structure IntelligentThresholdConfig where
  start_hour : ℚ
  end_hour : ℚ
  upper_bound : Option ℚ
  lower_bound : Option ℚ
  window_size : ℤ
deriving DecidableEq, Repr

/-- Modelled from the spec: `MetricThresholdResult` (module
`veaiops.schema.base`, not under the available sources) — per-series output
with `name`, `labels`, derived `unique_key`, a list of threshold blocks, a
`status` string (`"Success"`/`"Failed"`) and an `error_message`. -/
structure MetricThresholdResult where
  name : String
  labels : List (String × String)
  unique_key : String
  thresholds : List IntelligentThresholdConfig
  status : String
  error_message : String
deriving DecidableEq, Repr

/-- Junk block used for the unreachable empty cases of Python's `configs[0]` /
`configs[-1]` (an `IndexError` in the source, never hit on the call sites). -/
def junkConfig : IntelligentThresholdConfig :=
  { start_hour := 0, end_hour := 0, upper_bound := none, lower_bound := none, window_size := 0 }

/-! ### Block merger (C3): `ThresholdRecommender` merge methods -/

/-- `ThresholdRecommender.can_merge_threshold_configs`: a group of blocks is
mergeable iff all `window_size`s agree and both the present upper bounds and
the present lower bounds have a (max−min)/max spread of at most 10%
(`max = 0` allows only all-equal). -/
def can_merge_threshold_configs (configs : List IntelligentThresholdConfig) : Bool :=
  if configs.length ≤ 1 then true
  else
    let c0 := configs.headD junkConfig
    if ¬ configs.all (fun c => c.window_size = c0.window_size) then false
    else
      let upper_bounds := configs.filterMap (·.upper_bound)
      let lower_bounds := configs.filterMap (·.lower_bound)
      let upperOk :=
        if upper_bounds.isEmpty then true
        else
          let mx := qmax upper_bounds
          let mn := qmin upper_bounds
          if mx = 0 then decide (mx = mn)
          else decide ((mx - mn) / mx ≤ 0.1)
      let lowerOk :=
        if lower_bounds.isEmpty then true
        else
          let mx := qmax lower_bounds
          let mn := qmin lower_bounds
          if mx = 0 then decide (mx = mn)
          else decide ((mx - mn) / mx ≤ 0.1)
      upperOk && lowerOk

/-- `ThresholdRecommender.merge_threshold_configs`: merge a non-empty group
into one block spanning `configs[0].start_hour .. configs[-1].end_hour`,
taking `max` of upper bounds, `min` of lower bounds and the first block's
`window_size`. -/
def merge_threshold_configs (configs : List IntelligentThresholdConfig) :
    IntelligentThresholdConfig :=
  match configs with
  | [c] => c
  | _ =>
    let upper_bounds := configs.filterMap (·.upper_bound)
    let lower_bounds := configs.filterMap (·.lower_bound)
    { start_hour := (configs.headD junkConfig).start_hour
      end_hour := (configs.getLastD junkConfig).end_hour
      upper_bound := if upper_bounds.isEmpty then none else some (qmax upper_bounds)
      lower_bound := if lower_bounds.isEmpty then none else some (qmin lower_bounds)
      window_size := (configs.headD junkConfig).window_size }

/-- `ThresholdRecommender._calculate_merge_difference`: average relative
difference of the upper and lower bounds of two blocks (0 when nothing is
comparable). -/
def calculate_merge_difference (c1 c2 : IntelligentThresholdConfig) : ℚ :=
  let upperDiff : List ℚ :=
    match c1.upper_bound, c2.upper_bound with
    | some u1, some u2 =>
      let m := max |u1| |u2|
      if 0 < m then [|u1 - u2| / m] else []
    | _, _ => []
  let lowerDiff : List ℚ :=
    match c1.lower_bound, c2.lower_bound with
    | some l1, some l2 =>
      let m := max |l1| |l2|
      if 0 < m then [|l1 - l2| / m] else []
    | _, _ => []
  let differences := upperDiff ++ lowerDiff
  if differences.isEmpty then 0 else differences.sum / differences.length

/-- Scan of `_hierarchical_merge_thresholds`' inner `for` loop: index of the
first adjacent *continuous* pair of groups with the smallest
`calculate_merge_difference` (strict improvement keeps the earliest index,
matching `if diff < min_diff`). `none` models `min_diff_idx == -1`. -/
def findMinDiffIdx : List (List IntelligentThresholdConfig) → ℕ → Option (ℕ × ℚ) →
    Option (ℕ × ℚ)
  | b1 :: b2 :: rest, i, best =>
    let current_last := b1.getLastD junkConfig
    let next_first := b2.headD junkConfig
    let best2 :=
      if current_last.end_hour = next_first.start_hour then
        let diff := calculate_merge_difference current_last next_first
        match best with
        | some (_, bd) => if diff < bd then some (i, diff) else best
        | none => some (i, diff)
      else best
    findMinDiffIdx (b2 :: rest) (i + 1) best2
  | _, _, best => best

/-- `blocks[idx : idx+2] = [blocks[idx] + blocks[idx+1]]`. -/
def mergeAdjacentAt : List (List IntelligentThresholdConfig) → ℕ →
    List (List IntelligentThresholdConfig)
  | b1 :: b2 :: rest, 0 => (b1 ++ b2) :: rest
  | b :: rest, n + 1 => b :: mergeAdjacentAt rest n
  | l, _ => l

/-- The `while len(blocks) > max_blocks` loop of
`_hierarchical_merge_thresholds`.  Each iteration removes one group, so the
initial group count is sufficient fuel; fuel exhaustion returns the current
groups (never reached with the fuel supplied below). -/
def hierLoop (maxBlocks : ℕ) : ℕ → List (List IntelligentThresholdConfig) →
    List (List IntelligentThresholdConfig)
  | 0, blocks => blocks
  | fuel + 1, blocks =>
    if blocks.length ≤ maxBlocks then blocks
    else
      match findMinDiffIdx blocks 0 none with
      | none => blocks
      | some (i, _) => hierLoop maxBlocks fuel (mergeAdjacentAt blocks i)

/-- `ThresholdRecommender._hierarchical_merge_thresholds`: bottom-up
hierarchical merging of adjacent continuous blocks until at most `maxBlocks`
remain (or no continuous adjacent pair is left). -/
def hierarchical_merge_thresholds (thresholds : List IntelligentThresholdConfig)
    (maxBlocks : ℕ) : List IntelligentThresholdConfig :=
  if thresholds.length ≤ maxBlocks then thresholds
  else
    (hierLoop maxBlocks thresholds.length (thresholds.map (fun t => [t]))).map
      merge_threshold_configs

/-- The greedy walk of `merge_continuous_thresholds` (step 1): extend the
current group while the next block is continuous and the extended group is
10%-mergeable, otherwise emit the merged group and restart. -/
def greedyGo (grp : List IntelligentThresholdConfig) :
    List IntelligentThresholdConfig → List IntelligentThresholdConfig
  | [] => [merge_threshold_configs grp]
  | y :: ys =>
    if (grp.getLastD junkConfig).end_hour = y.start_hour then
      if can_merge_threshold_configs (grp ++ [y]) then greedyGo (grp ++ [y]) ys
      else merge_threshold_configs grp :: greedyGo [y] ys
    else merge_threshold_configs grp :: greedyGo [y] ys

/-- Ascending-by-`start_hour` comparison used by `sorted(…, key=start_hour)`. -/
def leStart (a b : IntelligentThresholdConfig) : Prop := a.start_hour ≤ b.start_hour

instance : DecidableRel leStart := fun _ _ => inferInstanceAs (Decidable (_ ≤ _))

instance : IsTotal IntelligentThresholdConfig leStart := ⟨fun _ _ => le_total _ _⟩

instance : IsTrans IntelligentThresholdConfig leStart := ⟨fun _ _ _ => le_trans⟩

/-- `ThresholdRecommender.merge_continuous_thresholds`: drop bound-less
blocks, and when at least two remain, sort by `start_hour`, greedily merge
(10% tolerance), then apply the hierarchical cap when the result still
exceeds `maxBlocks`.  With at most one valid block the *original* list is
returned untouched. -/
def merge_continuous_thresholds (maxBlocks : ℕ)
    (thresholds : List IntelligentThresholdConfig) : List IntelligentThresholdConfig :=
  let valid_thresholds :=
    thresholds.filter (fun t => t.upper_bound.isSome || t.lower_bound.isSome)
  if valid_thresholds.length ≤ 1 then thresholds
  else
    let sorted_thresholds := valid_thresholds.insertionSort leStart
    let merged_result :=
      match sorted_thresholds with
      | [] => []
      | x :: xs => greedyGo [x] xs
    if maxBlocks < merged_result.length then
      hierarchical_merge_thresholds merged_result maxBlocks
    else merged_result

/-- `ThresholdRecommender.merge_metric_threshold_results`: merge each
result's thresholds, keeping every other field unchanged. -/
def merge_metric_threshold_results (maxBlocks : ℕ)
    (results : List MetricThresholdResult) : List MetricThresholdResult :=
  results.map fun result =>
    { name := result.name
      labels := result.labels
      unique_key := result.unique_key
      thresholds := merge_continuous_thresholds maxBlocks result.thresholds
      status := result.status
      error_message := result.error_message }

/-! ### Up/down merge (`direction="both"`): `_merge_threshold_results` -/

/-- Python dict lookup for `{r.unique_key: r for r in down_results}`:
the *last* entry with the key wins. -/
def lookupLastByKey (results : List MetricThresholdResult) (key : String) :
    Option MetricThresholdResult :=
  results.reverse.find? (fun r => r.unique_key == key)

/-- A result is "consolidated" when it has exactly one block covering
`[0, 24]`. -/
def isConsolidated (thresholds : List IntelligentThresholdConfig) : Bool :=
  thresholds.length = 1 &&
    (thresholds.headD junkConfig).start_hour = 0 &&
    (thresholds.headD junkConfig).end_hour = 24

/-- The per-key block pairing of `_merge_threshold_results` (both sides
succeeded): broadcast when exactly one side is consolidated, pair by hour
range otherwise. -/
def mergeBothThresholds (up_thresholds down_thresholds : List IntelligentThresholdConfig) :
    List IntelligentThresholdConfig :=
  let up_consolidated := isConsolidated up_thresholds
  let down_consolidated := isConsolidated down_thresholds
  if up_consolidated && !down_consolidated then
    down_thresholds.map fun down_threshold =>
      { start_hour := down_threshold.start_hour
        end_hour := down_threshold.end_hour
        upper_bound := (up_thresholds.headD junkConfig).upper_bound
        lower_bound := down_threshold.lower_bound
        window_size := down_threshold.window_size }
  else if !up_consolidated && down_consolidated then
    up_thresholds.map fun up_threshold =>
      { start_hour := up_threshold.start_hour
        end_hour := up_threshold.end_hour
        upper_bound := up_threshold.upper_bound
        lower_bound := (down_thresholds.headD junkConfig).lower_bound
        window_size := up_threshold.window_size }
  else if up_consolidated && down_consolidated then
    up_thresholds.map fun up_threshold =>
      match down_thresholds.find? (fun dt =>
          dt.start_hour == up_threshold.start_hour && dt.end_hour == up_threshold.end_hour) with
      | some corresponding_down =>
        { start_hour := up_threshold.start_hour
          end_hour := up_threshold.end_hour
          upper_bound := up_threshold.upper_bound
          lower_bound := corresponding_down.lower_bound
          window_size := up_threshold.window_size }
      | none => up_threshold
  else
    let paired := up_thresholds.map fun up_threshold =>
      match (down_thresholds.reverse.find? (fun dt =>
          dt.start_hour == up_threshold.start_hour && dt.end_hour == up_threshold.end_hour)) with
      | some down_threshold =>
        { start_hour := up_threshold.start_hour
          end_hour := up_threshold.end_hour
          upper_bound := up_threshold.upper_bound
          lower_bound := down_threshold.lower_bound
          window_size := up_threshold.window_size }
      | none => up_threshold
    let extras := down_thresholds.filter fun down_threshold =>
      !(up_thresholds.any (fun t =>
          t.start_hour == down_threshold.start_hour && t.end_hour == down_threshold.end_hour))
    paired ++ extras

/-- The broadcast of the consolidated up-side bound over the down-side blocks
(the first branch of `mergeBothThresholds`, with `upper` the consolidated
block's `upper_bound`). -/
def broadcastOf (upper : Option ℚ) (l : List IntelligentThresholdConfig) :
    List IntelligentThresholdConfig :=
  l.map fun t =>
    { start_hour := t.start_hour
      end_hour := t.end_hour
      upper_bound := upper
      lower_bound := t.lower_bound
      window_size := t.window_size }

/-- One `up_result` entry of the `for up_result in up_results` loop of
`_merge_threshold_results`. -/
def mergeOneUpResult (up_result : MetricThresholdResult)
    (down : Option MetricThresholdResult) : MetricThresholdResult :=
  match down with
  | some down_result =>
    if up_result.status ≠ "Success" ∨ down_result.status ≠ "Success" then
      { name := up_result.name
        labels := up_result.labels
        unique_key := up_result.unique_key
        thresholds := []
        status := "Failed"
        error_message :=
          if up_result.status ≠ "Success" then up_result.error_message
          else if down_result.status ≠ "Success" then down_result.error_message
          else "" }
    else
      { name := up_result.name
        labels := up_result.labels
        unique_key := up_result.unique_key
        thresholds := mergeBothThresholds up_result.thresholds down_result.thresholds
        status := "Success"
        error_message := "" }
  | none => up_result

/-- `ThresholdRecommender._merge_threshold_results`: merge the per-direction
result lists by `unique_key` (down-only keys flow through as-is), then
re-merge each result's blocks through `merge_metric_threshold_results`. -/
def merge_threshold_results (maxBlocks : ℕ)
    (up_results down_results : List MetricThresholdResult) :
    List MetricThresholdResult :=
  let merged_results := up_results.map fun up_result =>
    mergeOneUpResult up_result (lookupLastByKey down_results up_result.unique_key)
  let down_only := down_results.filter fun down_result =>
    !(up_results.any (fun u => u.unique_key == down_result.unique_key))
  merge_metric_threshold_results maxBlocks (merged_results ++ down_only)

/-! ### 1-D DBSCAN (the external `dbscan1d` package)

Standard DBSCAN semantics on the line: a point is *core* when at least
`min_samples` points (itself included) lie within `eps`; clusters are the
chains of core points with consecutive sorted gaps ≤ `eps`; a non-core point
within `eps` of a core point joins the cluster of the nearest core value
(ties towards the smaller value — no claim below exercises a border tie);
everything else is noise. -/

/-- Core-point test. -/
def dbscanIsCore (eps : ℚ) (minSamples : ℕ) (xs : List ℚ) (x : ℚ) : Bool :=
  minSamples ≤ (xs.filter (fun y => |y - x| ≤ eps)).length

/-- Split an ascending list of core values into chains separated by gaps
greater than `eps`. -/
def chainSplitGo (eps : ℚ) (cur : List ℚ) (lastv : ℚ) : List ℚ → List (List ℚ)
  | [] => [cur.reverse]
  | y :: ys =>
    if y - lastv ≤ eps then chainSplitGo eps (y :: cur) y ys
    else cur.reverse :: chainSplitGo eps [y] y ys

/-- Chains of an ascending core-value list. -/
def chainSplit (eps : ℚ) : List ℚ → List (List ℚ)
  | [] => []
  | x :: xs => chainSplitGo eps [x] x xs

/-- Sorted list of core values of `xs`. -/
def dbscanCores (eps : ℚ) (minSamples : ℕ) (xs : List ℚ) : List ℚ :=
  (xs.filter (dbscanIsCore eps minSamples xs)).insertionSort (· ≤ ·)

/-- Cluster index assigned to a value (`none` = noise, label −1). -/
def dbscanLabel (eps : ℚ) (minSamples : ℕ) (xs : List ℚ) (x : ℚ) : Option ℕ :=
  let cores := dbscanCores eps minSamples xs
  let groups := chainSplit eps cores
  if dbscanIsCore eps minSamples xs x then groups.findIdx? (fun g => g.contains x)
  else
    match cores.filter (fun c => |c - x| ≤ eps) with
    | [] => none
    | c :: cs =>
      let best := cs.foldl (fun b y => if |y - x| < |b - x| then y else b) c
      groups.findIdx? (fun g => g.contains best)

/-- The clusters of `xs` as value lists in original order (multiplicity
preserved); `clusters_data[c]` of the source for each label `c ≥ 0`. -/
def dbscanClusters (eps : ℚ) (minSamples : ℕ) (xs : List ℚ) : List (List ℚ) :=
  (List.range (chainSplit eps (dbscanCores eps minSamples xs)).length).map fun i =>
    xs.filter (fun x => dbscanLabel eps minSamples xs x == some i)

/-! ### `recommend_general_threshold` (core estimator) -/

/-- `float('-inf')` together with the finite rationals. -/
inductive ExtendedQ where
  | negInf : ExtendedQ
  | val : ℚ → ExtendedQ
deriving DecidableEq, Repr

/-- `v ≤ m` with `m` possibly `-inf`. -/
def ExtendedQ.leGe (v : ℚ) : ExtendedQ → Bool
  | .negInf => false
  | .val m => v ≤ m

/-- `max m v` with `m` possibly `-inf`. -/
def ExtendedQ.maxWith : ExtendedQ → ℚ → ExtendedQ
  | .negInf, v => .val v
  | .val m, v => .val (max m v)

/-- A maximal run of consecutive values above the current bound:
`[left, right, min_val]` of the source. -/
structure AbnormalRun where
  left : ℕ
  right : ℕ
  minv : ℚ
deriving DecidableEq, Repr

/-- The walk collecting maximal runs of values `> final_max_value`. -/
def abnormalWalk (fmv : ExtendedQ) : ℕ → List ℚ → Option AbnormalRun → List AbnormalRun
  | _, [], cur => match cur with | some r => [r] | none => []
  | i, v :: rest, cur =>
    if ExtendedQ.leGe v fmv then
      match cur with
      | some r => r :: abnormalWalk fmv (i + 1) rest none
      | none => abnormalWalk fmv (i + 1) rest none
    else
      match cur with
      | some r => abnormalWalk fmv (i + 1) rest (some ⟨r.left, i, min r.minv v⟩)
      | none => abnormalWalk fmv (i + 1) rest (some ⟨i, i, v⟩)

/-- Merge runs whose gap in seconds is below one hour, keeping the smaller
minimum. -/
def mergeNearbyRuns (ts : List ℚ) (cur : AbnormalRun) : List AbnormalRun → List AbnormalRun
  | [] => [cur]
  | b :: bs =>
    if ts.getD b.left 0 - ts.getD cur.right 0 < 3600 then
      mergeNearbyRuns ts ⟨cur.left, b.right, min cur.minv b.minv⟩ bs
    else cur :: mergeNearbyRuns ts b bs

/-- One pass of the abnormal-region bookkeeping: returns the
`(length, min_val)` metadata sorted by `min_val` descending. -/
def abnormalMetadata (ts vs : List ℚ) (window_size : ℤ) (fmv : ExtendedQ) : List (ℕ × ℚ) :=
  let abnormals := abnormalWalk fmv 0 vs none
  let abnormals_valid :=
    abnormals.filter (fun r => window_size ≤ (r.right : ℤ) - (r.left : ℤ) + 1)
  let abnormals_merge :=
    match abnormals_valid with
    | [] => []
    | r :: rest => mergeNearbyRuns ts r rest
  let metadata := abnormals_merge.filterMap fun r =>
    if (r.right : ℤ) - (r.left : ℤ) + 1 < window_size ∨ ExtendedQ.leGe r.minv fmv then none
    else some (r.right - r.left + 1, r.minv)
  metadata.insertionSort (fun a b => b.2 ≤ a.2)

/-- The `while True` elimination loop.  Every non-breaking iteration raises
`final_max_value` strictly, to the minimum of some surviving run — a value of
`vs` — so at most `vs.length` iterations can run; the fuel passed below is
`vs.length + 1` and is never exhausted. -/
def abnormalLoop (ts vs : List ℚ) (window_size : ℤ) (ignore_count : ℕ) :
    ℕ → ExtendedQ → ExtendedQ
  | 0, fmv => fmv
  | fuel + 1, fmv =>
    let metadata := abnormalMetadata ts vs window_size fmv
    if metadata.length ≤ ignore_count then fmv
    else abnormalLoop ts vs window_size ignore_count fuel
      (fmv.maxWith (metadata.getLastD (0, 0)).2)

/-- Result dictionary of `recommend_general_threshold`. -/
structure GeneralThresholdResult where
  status : Bool
  threshold : ℚ
deriving DecidableEq, Repr

/-- `ThresholdRecommendAlgorithm.recommend_general_threshold`.

`Except.error ()` models the `ValueError` raised by `int(3600 / nan)` when
the series has fewer than two timestamps (`np.median([])` is NaN, and
`nan <= 0` is false in Python, so the guard does not catch it).

In the `direction="down"` epilogue the source computes
`threshold = max(min_value, threshold)` but then returns the *unclamped*
`final_max_value / coefficient`; the embedding reproduces that behaviour. -/
def recommend_general_threshold (ts vs : List ℚ) (window_size : ℤ) (ignore_count : ℕ)
    (min_value max_value : Option ℚ) (direction : Direction) (sensitivity : ℚ) :
    Except Unit GeneralThresholdResult :=
  let value_list := if direction = .up then vs else vs.map (fun v => -v)
  let coefficient : ℚ := 1.05 + 0.3 * sensitivity
  match np_median (consecutiveDiffs ts) with
  | none => .error ()
  | some time_interval =>
    if time_interval ≤ 0 then .ok ⟨false, -1⟩
    else
      let cluster_size : ℕ :=
        min value_list.length (max 1 (Int.floor (3600 / time_interval)).toNat)
      let eps := |np_mean value_list| / 5
      let clusters := dbscanClusters eps cluster_size value_list
      let final0 : ExtendedQ := clusters.foldl
        (fun acc cl => if cluster_size ≤ cl.length then acc.maxWith (qmax cl) else acc)
        .negInf
      let final_max_value :=
        abnormalLoop ts value_list window_size ignore_count (value_list.length + 1) final0
      match final_max_value with
      | .negInf =>
        if 0 < value_list.length then
          match direction with
          | .up => .ok ⟨true, np_percentile95 value_list * coefficient⟩
          | .down =>
            let baseline := np_percentile95 value_list
            .ok ⟨true, (0 - baseline) / coefficient⟩
        else .ok ⟨false, -1⟩
      | .val m =>
        match direction with
        | .up =>
          let threshold := m * coefficient
          let threshold :=
            match max_value with
            | some mv => min mv threshold
            | none => threshold
          .ok ⟨true, threshold⟩
        | .down =>
          let unneg := 0 - m
          -- Dead store of the source, kept for fidelity: `threshold =
          -- max(min_value, threshold)` is computed but the `return` uses the
          -- unclamped `final_max_value / coefficient`.
          let _threshold :=
            match min_value with
            | some mv => max mv (unneg / coefficient)
            | none => unneg / coefficient
          .ok ⟨true, unneg / coefficient⟩

/-! ### Sliding-window wrapper and the time-split driver -/

/-- The candidate-window loop of
`threshold_recommendation_with_sliding_window` (an uncaught exception from
the estimator propagates). -/
def slidingWindowGo (ts vs : List ℚ) (ignore_count : ℕ)
    (min_value max_value : Option ℚ) (direction : Direction) (sensitivity : ℚ) :
    List ℤ → ℚ × ℤ → Except Unit (ℚ × ℤ)
  | [], acc => .ok acc
  | w :: rest, acc => do
    let result ← recommend_general_threshold ts vs w ignore_count min_value max_value
      direction sensitivity
    if !result.status then
      slidingWindowGo ts vs ignore_count min_value max_value direction sensitivity rest acc
    else
      let acc2 := (result.threshold, w)
      let brk :=
        match direction with
        | .up => match max_value with | none => true | some mv => decide (result.threshold < mv)
        | .down => match min_value with | none => true | some mv => decide (mv < result.threshold)
      if brk then .ok acc2
      else slidingWindowGo ts vs ignore_count min_value max_value direction sensitivity rest acc2

/-- `ThresholdRecommendAlgorithm.threshold_recommendation_with_sliding_window`:
try windows `[default]` (plus `default+1 … 9` when `auto_window_adjust`),
stop at the first in-bounds success, keep the last candidate otherwise, then
clamp with `normal_threshold`. -/
def threshold_recommendation_with_sliding_window (ts vs : List ℚ)
    (default_window_size : ℤ) (auto_window_adjust : Bool)
    (min_value max_value normal_threshold : Option ℚ) (ignore_count : ℕ)
    (direction : Direction) (sensitivity : ℚ) : Except Unit (ℚ × ℤ) := do
  let windows : List ℤ :=
    [default_window_size] ++
      (if auto_window_adjust then
        (List.range (9 - default_window_size).toNat).map (fun i => default_window_size + 1 + i)
      else [])
  let (last_threshold, last_window_size) ←
    slidingWindowGo ts vs ignore_count min_value max_value direction sensitivity windows
      (0, windows.getLastD default_window_size)
  let final_threshold :=
    match direction, normal_threshold with
    | .up, some nt => max last_threshold nt
    | .down, some nt => min last_threshold nt
    | _, none => last_threshold
  pure (final_threshold, last_window_size)

/-! ### Time-split driver (`_process_time_split_periods`) -/

/-- One threshold-group dictionary produced by the recommendation algorithm
(`upper_bound`, `lower_bound` and `window_size` may all be `None`). -/
structure ThresholdGroup where
  start_hour : ℚ
  end_hour : ℚ
  upper_bound : Option ℚ
  lower_bound : Option ℚ
  window_size : Option ℤ
deriving DecidableEq, Repr

/-- `get_timestamp_hour` for a fixed-UTC-offset timezone (`tzOffset` in
seconds): Python's `datetime.fromtimestamp(timestamp, tz)` followed by
`hour + minute/60 + second/3600`.  Zones with DST transitions are outside
this embedding; all theorems quantify over the offset. -/
def get_timestamp_hour (tzOffset : ℤ) (timestamp : ℚ) : ℚ :=
  let s : ℤ := ((Int.floor timestamp + tzOffset) % 86400 + 86400) % 86400
  let hour := s / 3600
  let minute := (s % 3600) / 60
  let second := s % 60
  (hour : ℚ) + (minute : ℚ) / 60 + (second : ℚ) / 3600

/-- The constructor's default `time_split_ranges`: `k` equal ranges covering
`[0, 24]` (`k = DEFAULT_NUMBER_OF_TIME_SPLIT = 4` by default). -/
def time_split_ranges_of (k : ℕ) : List (ℚ × ℚ) :=
  (List.range k).map fun i => ((24 * i : ℚ) / k, (24 * (i + 1) : ℚ) / k)

/-- The default four ranges `[0,6), [6,12), [12,18), [18,24]`. -/
def default_time_split_ranges : List (ℚ × ℚ) := time_split_ranges_of 4

/-- One entry of the intermediate `thresholds` list of
`_process_time_split_periods`:
`[time_index, threshold, window_size, threshold_no_ignore,
window_size_no_ignore, ratio]` — the four middle fields are `None` for an
insufficient range, in which case `ratio = 1.0`. -/
structure SplitRow where
  time_index : ℕ
  thr : Option ℚ
  ws : Option ℤ
  thr0 : Option ℚ
  ws0 : Option ℤ
  ratio : ℚ
deriving DecidableEq, Repr

/-- Ratio-descending comparison of `thresholds.sort(key=λx. x[-1],
reverse=True)`. -/
def geRatio (a b : SplitRow) : Prop := b.ratio ≤ a.ratio

instance : DecidableRel geRatio := fun _ _ => inferInstanceAs (Decidable (_ ≤ _))

instance : IsTotal SplitRow geRatio := ⟨fun _ _ => le_total _ _⟩

instance : IsTrans SplitRow geRatio := ⟨fun _ _ _ h h2 => le_trans h2 h⟩

/-- The `data_split` construction of `_process_time_split_periods`: the
points of each hour range, in input order.  Indexing `value_list[index]`
presumes `vs` is at least as long as `ts` (callers validate equal lengths);
the embedding zips the two lists. -/
def split_data_by_ranges (tzOffset : ℤ) (ranges : List (ℚ × ℚ)) (ts vs : List ℚ) :
    List (List (ℚ × ℚ)) :=
  ranges.map fun r =>
    (ts.zip vs).filter fun p =>
      r.1 ≤ get_timestamp_hour tzOffset p.1 ∧ get_timestamp_hour tzOffset p.1 < r.2

/-- The body of the per-range loop of `_process_time_split_periods` for range
index `time_index`: an all-`None` row for an insufficient range, otherwise
the two sliding-window thresholds and their ratio. -/
def splitRowOf (tzOffset : ℤ) (ranges : List (ℚ × ℚ)) (ts vs : List ℚ)
    (default_window_size : ℤ) (auto_window_adjust : Bool)
    (min_value max_value normal_threshold : Option ℚ) (min_ts_length : ℤ)
    (direction : Direction) (sensitivity : ℚ) (time_index : ℕ) : Except Unit SplitRow :=
  if ((((split_data_by_ranges tzOffset ranges ts vs).getD time_index []).length : ℚ) <
      (min_ts_length : ℚ) / 24 *
        ((ranges.getD time_index (0, 0)).2 - (ranges.getD time_index (0, 0)).1)) then
    .ok ⟨time_index, none, none, none, none, 1⟩
  else
    match threshold_recommendation_with_sliding_window
      (((split_data_by_ranges tzOffset ranges ts vs).getD time_index []).map Prod.fst)
      (((split_data_by_ranges tzOffset ranges ts vs).getD time_index []).map Prod.snd)
      default_window_size auto_window_adjust min_value max_value normal_threshold 1
      direction sensitivity with
    | .error e => .error e
    | .ok (threshold, window_size) =>
      match threshold_recommendation_with_sliding_window
        (((split_data_by_ranges tzOffset ranges ts vs).getD time_index []).map Prod.fst)
        (((split_data_by_ranges tzOffset ranges ts vs).getD time_index []).map Prod.snd)
        default_window_size auto_window_adjust min_value max_value normal_threshold 0
        direction sensitivity with
      | .error e => .error e
      | .ok (threshold_no_ignore, window_size_no_ignore) =>
        .ok ⟨time_index, some threshold, some window_size, some threshold_no_ignore,
          some window_size_no_ignore,
          if threshold ≠ 0 then threshold_no_ignore / threshold else 1⟩

/-- Left-to-right accumulation of the per-range rows (the `for time_index in
range(len(data_split))` loop; the first uncaught exception aborts the whole
call, as in the source). -/
def buildSplitRows (f : ℕ → Except Unit SplitRow) : List ℕ → Except Unit (List SplitRow)
  | [] => .ok []
  | i :: is =>
    match f i with
    | .error e => .error e
    | .ok row =>
      match buildSplitRows f is with
      | .error e => .error e
      | .ok rest => .ok (row :: rest)

/-- `ThresholdRecommendAlgorithm._process_time_split_periods`: split the
series into hour ranges, compute two candidate thresholds per sufficient
range (`ignore_count` 1 and 0), rank the ranges by the ratio of the two
(descending, stable), let the top range use its `ignore_count=1` threshold
and every other range its `ignore_count=0` one.  Insufficient ranges
contribute an all-`None` row with ratio `1.0`. -/
def process_time_split_periods (tzOffset : ℤ) (ranges : List (ℚ × ℚ))
    (ts vs : List ℚ) (default_window_size : ℤ) (auto_window_adjust : Bool)
    (min_value max_value normal_threshold : Option ℚ) (min_ts_length : ℤ)
    (direction : Direction) (sensitivity : ℚ) : Except Unit (List ThresholdGroup) :=
  match buildSplitRows
    (splitRowOf tzOffset ranges ts vs default_window_size auto_window_adjust min_value
      max_value normal_threshold min_ts_length direction sensitivity)
    (List.range ranges.length) with
  | .error e => .error e
  | .ok rows =>
    .ok <| ((rows.insertionSort geRatio).enum).map fun p =>
      { start_hour := (ranges.getD p.2.time_index (0, 0)).1
        end_hour := (ranges.getD p.2.time_index (0, 0)).2
        upper_bound :=
          if direction = .up then (if p.1 = 0 then p.2.thr else p.2.thr0) else none
        lower_bound :=
          if direction = .down then (if p.1 = 0 then p.2.thr else p.2.thr0) else none
        window_size := if p.1 = 0 then p.2.ws else p.2.ws0 }

/-- `ThresholdRecommendAlgorithm._process_single_time_period`: one block
covering `[0, 24]` carrying the sliding-window threshold on the side given
by `direction`. -/
def process_single_time_period (ts vs : List ℚ) (default_window_size : ℤ)
    (auto_window_adjust : Bool) (min_value max_value normal_threshold : Option ℚ)
    (direction : Direction) (sensitivity : ℚ) : Except Unit (List ThresholdGroup) := do
  let (threshold, window_size) ← threshold_recommendation_with_sliding_window
    ts vs default_window_size auto_window_adjust min_value max_value normal_threshold 1
    direction sensitivity
  pure [{ start_hour := 0
          end_hour := 24
          upper_bound := if direction = .up then some threshold else none
          lower_bound := if direction = .down then some threshold else none
          window_size := some window_size }]

/-- The dict→`IntelligentThresholdConfig` conversion of
`_process_time_series_data` (lines 906–923 of `threshold_recommender.py`):
`ws = group.get("window_size") or window_size` — Python's `or` replaces both
`None` and `0` by the task-level default. -/
def threshold_groups_to_configs (window_size : ℤ) (groups : List ThresholdGroup) :
    List IntelligentThresholdConfig :=
  groups.map fun g =>
    let ws := match g.window_size with
      | some w => if w = 0 then window_size else w
      | none => window_size
    { start_hour := g.start_hour
      end_hour := g.end_hour
      upper_bound := g.upper_bound
      lower_bound := g.lower_bound
      window_size := ws }

/-- The C2→C3 pipeline for one series in the time-split branch: run the
time-split driver, convert the groups to configs, then apply the block
merger. -/
def time_split_pipeline (tzOffset : ℤ) (ranges : List (ℚ × ℚ)) (ts vs : List ℚ)
    (default_window_size : ℤ) (auto_window_adjust : Bool)
    (min_value max_value normal_threshold : Option ℚ) (min_ts_length : ℤ)
    (direction : Direction) (sensitivity : ℚ) (maxBlocks : ℕ) :
    Except Unit (List IntelligentThresholdConfig) := do
  let groups ← process_time_split_periods tzOffset ranges ts vs default_window_size
    auto_window_adjust min_value max_value normal_threshold min_ts_length direction
    sensitivity
  pure (merge_continuous_thresholds maxBlocks
    (threshold_groups_to_configs default_window_size groups))

/-! ### Period detector (`robust_daily_period_detector.py`)

Python dictionaries are embedded as association lists preserving insertion
order.  `scipy.stats.pearsonr` is floating-point and is taken as an abstract
total parameter `pearson`; its `none` outcomes model both a NaN result and an
exception caught by `_calculate_correlation`. -/

/-- Ordered-dictionary lookup. -/
def alGet {κ ν : Type} [BEq κ] (l : List (κ × ν)) (k : κ) : Option ν :=
  (l.find? (fun p => p.1 == k)).map (·.2)

/-- Ordered-dictionary update: overwrite in place, or append a new key. -/
def alSet {κ ν : Type} [BEq κ] : List (κ × ν) → κ → ν → List (κ × ν)
  | [], k, v => [(k, v)]
  | (k2, v2) :: rest, k, v =>
    if k2 == k then (k2, v) :: rest else (k2, v2) :: alSet rest k v

/-- Occurrence counts of a list in first-occurrence order (a Python
`dict` used as a counter). -/
def countsInOrder (l : List ℤ) : List (ℤ × ℕ) :=
  l.foldl
    (fun acc i =>
      match alGet acc i with
      | some c => alSet acc i (c + 1)
      | none => acc ++ [(i, 1)])
    []

/-- All ordered pairs `(l[i], l[j])` with `i < j`. -/
def allPairs {α : Type} : List α → List (α × α)
  | [] => []
  | x :: xs => (xs.map (fun y => (x, y))) ++ allPairs xs

/-- Python `float` modulo for a positive modulus. -/
def qmod (a b : ℚ) : ℚ := a - b * ((a / b).floor : ℚ)

/-- Detector configuration (`correlation_threshold`,
`min_data_points_per_day`, `min_common_points`; defaults 0.3, 720, 720). -/
structure PeriodDetectorParams where
  correlation_threshold : ℚ := 0.3
  min_data_points_per_day : ℕ := 720
  min_common_points : ℕ := 720
deriving Repr

/-- `RobustDailyPeriodDetector._determine_sampling_interval`: mode of the
truncated consecutive timestamp differences (ties break towards the earliest
first occurrence, matching the stable `sort` over Python dict order);
`0` when no positive difference exists. -/
def determine_sampling_interval (tss : List ℚ) : ℚ :=
  if tss.length < 2 then 0
  else
    let intervals := ((consecutiveDiffs tss).map (fun d => d.floor)).filter (fun i => 0 < i)
    match (countsInOrder intervals).insertionSort (fun a b => b.2 ≤ a.2) with
    | [] => 0
    | (k, _) :: _ => (k : ℚ)

/-- Output of `_preprocess_data` (the unused `start_timestamp` field of the
source dictionary is not carried). -/
structure PreprocessedData where
  daily_data : List (ℤ × List (ℤ × ℚ))
  day_completeness : List (ℤ × Bool)
  sampling_interval : ℚ
deriving Repr

/-- `RobustDailyPeriodDetector._organize_data_by_days` over
timestamp/value pairs: bucket each point into `(day, slot)` (the last value
per slot wins), track per-day coverage, and mark a day complete when its
coverage span reaches `86400 − Δ`. -/
def organize_data_by_days (pairs : List (ℚ × ℚ)) (sampling_interval : ℚ) :
    Option PreprocessedData :=
  match pairs with
  | [] => none
  | (t0, _) :: _ =>
    let st := pairs.foldl
      (fun (st : List (ℤ × List (ℤ × ℚ)) × List (ℤ × (ℚ × ℚ))) p =>
        let day_key := ((p.1 - t0) / 86400).floor
        let time_within_day := qmod (p.1 - t0) 86400
        let time_bucket := (time_within_day / sampling_interval).floor
        match alGet st.1 day_key, alGet st.2 day_key with
        | some buckets, some cov =>
          (alSet st.1 day_key (alSet buckets time_bucket p.2),
           alSet st.2 day_key (min time_within_day cov.1, max time_within_day cov.2))
        | _, _ =>
          (st.1 ++ [(day_key, [(time_bucket, p.2)])],
           st.2 ++ [(day_key, (time_within_day, time_within_day))]))
      ([], [])
    let expected_span := 86400 - sampling_interval
    some
      { daily_data := st.1
        day_completeness := st.2.map (fun c => (c.1, decide (expected_span ≤ c.2.2 - c.2.1)))
        sampling_interval := sampling_interval }

/-- `RobustDailyPeriodDetector._preprocess_data`: stable-sort by timestamp,
keep the trailing 7-day window, infer the sampling interval, organize by
days.  A `value_list` shorter than `timestamp_list` makes the source raise an
`IndexError` (absorbed into `False` by `detect`), modelled by `none`. -/
def preprocess_data (ts vs : List ℚ) : Option PreprocessedData :=
  if vs.length < ts.length then none
  else
    let sortedPairs := (ts.zip vs).insertionSort (fun a b => a.1 ≤ b.1)
    match sortedPairs.getLast? with
    | none => none
    | some lastp =>
      let cutoff := lastp.1 - 86400 * 7
      let analysis := sortedPairs.dropWhile (fun p => p.1 < cutoff)
      if analysis.isEmpty then none
      else
        let sampling_interval := determine_sampling_interval (analysis.map Prod.fst)
        if sampling_interval ≤ 0 then none
        else organize_data_by_days analysis sampling_interval

/-- `RobustDailyPeriodDetector._calculate_correlation` around the abstract
`pearson`: `none` for empty input, length mismatch, a constant side, or a
NaN/exception from the underlying routine. -/
def calculate_correlation (pearson : List ℚ → List ℚ → Option ℚ) (v1 v2 : List ℚ) :
    Option ℚ :=
  if v1.isEmpty || v2.isEmpty then none
  else if v1.length ≠ v2.length then none
  else if v1.all (fun x => x = v1.headD 0) || v2.all (fun x => x = v2.headD 0) then none
  else pearson v1 v2

/-- `RobustDailyPeriodDetector._check_value_range_overlap`: `false` iff two
complete days (both among the filtered days) have non-overlapping value
ranges.  The unused `mean`/`std`/`count` statistics of the source are not
carried. -/
def check_value_range_overlap (filtered : List (ℤ × List (ℤ × ℚ)))
    (completeness : List (ℤ × Bool)) : Bool :=
  let complete_days := (completeness.filter (·.2)).map (·.1)
  (allPairs complete_days).all fun p =>
    match alGet filtered p.1, alGet filtered p.2 with
    | some b1, some b2 =>
      let mx1 := qmax (b1.map (·.2))
      let mn1 := qmin (b1.map (·.2))
      let mx2 := qmax (b2.map (·.2))
      let mn2 := qmin (b2.map (·.2))
      !(mx2 ≤ mn1 || mx1 ≤ mn2)
    | _, _ => true

/-- Mean of the contributed correlations reaches the threshold (`false` when
none contributed). -/
def correlationsPass (threshold : ℚ) (correlations : List ℚ) : Bool :=
  if correlations.isEmpty then false
  else threshold ≤ correlations.sum / correlations.length

/-- `RobustDailyPeriodDetector._correlate_common_timepoints`. -/
def correlate_common_timepoints (prm : PeriodDetectorParams)
    (pearson : List ℚ → List ℚ → Option ℚ) (filtered : List (ℤ × List (ℤ × ℚ)))
    (common : List ℤ) : Bool :=
  let sortedCommon := common.insertionSort (· ≤ ·)
  let day_values := filtered.map fun d =>
    sortedCommon.map (fun tp => (alGet d.2 tp).getD 0)
  let correlations := (allPairs day_values).filterMap fun p =>
    calculate_correlation pearson p.1 p.2
  correlationsPass prm.correlation_threshold correlations

/-- `RobustDailyPeriodDetector._calculate_pairwise_correlation`. -/
def calculate_pairwise_correlation (prm : PeriodDetectorParams)
    (pearson : List ℚ → List ℚ → Option ℚ) (filtered : List (ℤ × List (ℤ × ℚ))) : Bool :=
  let correlations := (allPairs filtered).filterMap fun p =>
    let common := (p.1.2.map (·.1)).filter (fun k => (p.2.2.map (·.1)).contains k)
    if prm.min_common_points ≤ common.length then
      let sortedCommon := common.insertionSort (· ≤ ·)
      calculate_correlation pearson
        (sortedCommon.map (fun tp => (alGet p.1.2 tp).getD 0))
        (sortedCommon.map (fun tp => (alGet p.2.2 tp).getD 0))
    else none
  correlationsPass prm.correlation_threshold correlations

/-- `RobustDailyPeriodDetector._calculate_daily_correlations`: use the slots
common to all kept days when there are enough of them, otherwise fall back to
per-pair common slots. -/
def calculate_daily_correlations (prm : PeriodDetectorParams)
    (pearson : List ℚ → List ℚ → Option ℚ) (filtered : List (ℤ × List (ℤ × ℚ))) : Bool :=
  let keySets := filtered.map (fun d => d.2.map (·.1))
  let common :=
    match keySets with
    | [] => []
    | ks :: rest => rest.foldl (fun acc s => acc.filter (fun k => s.contains k)) ks
  if prm.min_common_points ≤ common.length then
    correlate_common_timepoints prm pearson filtered common
  else calculate_pairwise_correlation prm pearson filtered

/-- `RobustDailyPeriodDetector._analyze_daily_patterns`. -/
def analyze_daily_patterns (prm : PeriodDetectorParams)
    (pearson : List ℚ → List ℚ → Option ℚ) (pd : PreprocessedData) : Bool :=
  let filtered := pd.daily_data.filter fun d => prm.min_data_points_per_day ≤ d.2.length
  if filtered.length < 2 then false
  else if !check_value_range_overlap filtered pd.day_completeness then false
  else calculate_daily_correlations prm pearson filtered

/-- `RobustDailyPeriodDetector.detect`.  The time-span validation
`max(timestamp_list) - min(timestamp_list)` runs *outside* the
`try`/`except` block and raises `ValueError` on an empty timestamp list
(`Except.error ()`); every exception after it is absorbed into `False`
(modelled by the inner functions being total, with `none` outcomes mapping
to `False`). -/
def detect (prm : PeriodDetectorParams) (pearson : List ℚ → List ℚ → Option ℚ)
    (ts vs : List ℚ) : Except Unit Bool :=
  match ts.max?, ts.min? with
  | some mx, some mn =>
    if mx - mn < 2 * 86400 then .ok false
    else
      .ok
        (match preprocess_data ts vs with
         | none => false
         | some pd => analyze_daily_patterns prm pearson pd)
  | _, _ => .error ()

/-! ### Priority scheduler: `TaskRequest` and queue admission -/

/-- `TaskRequest` of `threshold_recommender.py`.  `priority` is the integer
`TaskPriority.value` — the `TaskPriority` enum lives in
`veaiops.schema.types`, outside the available sources, and the comparator
uses only its integer `value`.  The payload fields not consulted by the
scheduler are carried opaquely. -/
structure TaskRequest where
  task_id : String
  task_version : ℤ
  datasource_id : String
  window_size : ℤ
  priority : ℤ
  sensitivity : ℚ
  created_at : ℚ
deriving DecidableEq, Repr

/-- `TaskRequest.__lt__`: higher `priority.value` compares as smaller (so a
min-heap pops it first); ties break by earlier `created_at`. -/
def TaskRequest.lt (a b : TaskRequest) : Bool :=
  if a.priority ≠ b.priority then decide (b.priority < a.priority)
  else decide (a.created_at < b.created_at)

/-- `heapq.heappop` at its documented contract ("pop the smallest item off
the heap") with smallest read via `TaskRequest.__lt__`: the leftmost minimal
element is removed and returned.  Elements tied in both `priority` and
`created_at` are indistinguishable to the comparator, so the choice among
them is immaterial to the scheduling contract. -/
def heappop_min (q : List TaskRequest) : Option (TaskRequest × List TaskRequest) :=
  match q with
  | [] => none
  | x :: xs =>
    some (xs.foldl (fun best y => if TaskRequest.lt y best then y else best) x,
      (x :: xs).erase (xs.foldl (fun best y => if TaskRequest.lt y best then y else best) x))

/-- Successive admissions of `_process_queue` when capacity allows: the
order in which queued requests are started. -/
def admissionOrder : ℕ → List TaskRequest → List TaskRequest
  | 0, _ => []
  | fuel + 1, q =>
    match heappop_min q with
    | none => []
    | some (r, rest) => r :: admissionOrder fuel rest

/-! ### Rule-synchronizer retry (`BaseRuleSynchronizer.execute_operations`) -/

/-- Observable outcome of one `execute_with_retry` call: how many times the
wrapped provider call ran, the back-off sleeps (seconds, in order) performed
between consecutive attempts, and the surfaced result. -/
structure RetryOutcome (ε α : Type) where
  calls : ℕ
  sleeps : List ℚ
  result : Except ε α
deriving Repr

/-- The `for attempt in range(max_retries + 1)` loop of
`execute_with_retry`, with `left` the number of attempts remaining
(initially `max_retries + 1`; the `left = 0` case is unreachable junk).
A successful attempt returns immediately; a failed attempt sleeps
`retry_interval · 2^attempt` seconds when retries remain and re-raises
otherwise. -/
def retryCountdown {ε α : Type} (f : ℕ → Except ε α) (retry_interval : ℚ) :
    (attempt : ℕ) → (left : ℕ) → (sleeps : List ℚ) → RetryOutcome ε α
  | attempt, 0, sleeps => ⟨attempt, sleeps.reverse, f attempt⟩
  | attempt, 1, sleeps => ⟨attempt + 1, sleeps.reverse, f attempt⟩
  | attempt, left + 2, sleeps =>
    match f attempt with
    | .ok a => ⟨attempt + 1, sleeps.reverse, .ok a⟩
    | .error _ =>
      retryCountdown f retry_interval (attempt + 1) (left + 1)
        (retry_interval * 2 ^ attempt :: sleeps)

/-- `execute_with_retry` (`veaiops/metrics/base.py`): `max_retries = 3`,
initial `retry_interval = 2` seconds.  The attempt outcomes of the wrapped
provider call are abstracted as `f : ℕ → Except ε α` (outcome of the
`attempt`-th call). -/
def execute_with_retry {ε α : Type} (f : ℕ → Except ε α) : RetryOutcome ε α :=
  retryCountdown f 2 0 (3 + 1) []

/-! ### Token-bucket rate limiter (`RateLimiter.acquire_token`) -/

/-- `RateLimiter._buckets[key]`: current tokens and the last refill time. -/
structure BucketState where
  tokens : ℚ
  last_refill : ℚ
deriving DecidableEq, Repr

/-- One wake-up of `acquire_token`'s `while True` body at time `now`:
refill at `qps` tokens per second capped at `qps`, then grant (consume one
token) when at least one token is available.  The Boolean is "granted"
(`return`); otherwise the caller sleeps and polls again. -/
def acquireStep (qps : ℚ) (s : BucketState) (now : ℚ) : Bool × BucketState :=
  if 1 ≤ min qps (s.tokens + (now - s.last_refill) * qps) then
    (true, ⟨min qps (s.tokens + (now - s.last_refill) * qps) - 1, now⟩)
  else (false, ⟨min qps (s.tokens + (now - s.last_refill) * qps), now⟩)

/-- The bucket created on first use: `float(qps)` tokens, refill clock at
the creation instant. -/
def initBucket (qps : ℚ) (t0 : ℚ) : BucketState := ⟨qps, t0⟩

/-- Process the poll instants `times` in order from state `s` and count the
granted acquisitions whose instant falls within `[lo, hi]`. -/
def grantsInWindow (qps : ℚ) (s : BucketState) (lo hi : ℚ) : List ℚ → ℕ
  | [] => 0
  | t :: rest =>
    (if (acquireStep qps s t).1 && decide (lo ≤ t) && decide (t ≤ hi) then 1 else 0) +
      grantsInWindow qps (acquireStep qps s t).2 lo hi rest

/-! ### Chain-partition predicates

`ChainFrom a b l` says the blocks of `l` tile the interval `[a, b]` in
order: the first block starts at `a`, every block is non-degenerate and ends
where its successor starts, and the last block ends at `b`.  For threshold
lists this is exactly "strictly ordered by `start_hour`, pairwise disjoint
interiors and union `[a, b]`". -/

def ChainFrom (a b : ℚ) : List IntelligentThresholdConfig → Prop
  | [] => a = b
  | c :: l => c.start_hour = a ∧ c.start_hour < c.end_hour ∧ ChainFrom c.end_hour b l

instance instDecChainFrom : (a b : ℚ) → (l : List IntelligentThresholdConfig) →
    Decidable (ChainFrom a b l)
  | a, b, [] => inferInstanceAs (Decidable (a = b))
  | a, b, c :: l =>
    haveI : Decidable (ChainFrom c.end_hour b l) := instDecChainFrom c.end_hour b l
    inferInstanceAs
      (Decidable (c.start_hour = a ∧ c.start_hour < c.end_hour ∧ ChainFrom c.end_hour b l))

/-- The same tiling predicate on bare `(start, end)` pairs. -/
def PairChainFrom (a b : ℚ) : List (ℚ × ℚ) → Prop
  | [] => a = b
  | p :: l => p.1 = a ∧ p.1 < p.2 ∧ PairChainFrom p.2 b l

instance instDecPairChainFrom : (a b : ℚ) → (l : List (ℚ × ℚ)) →
    Decidable (PairChainFrom a b l)
  | a, b, [] => inferInstanceAs (Decidable (a = b))
  | a, b, p :: l =>
    haveI : Decidable (PairChainFrom p.2 b l) := instDecPairChainFrom p.2 b l
    inferInstanceAs (Decidable (p.1 = a ∧ p.1 < p.2 ∧ PairChainFrom p.2 b l))

/-- The `(start_hour, end_hour)` range list of a block list. -/
def rangesOf (l : List IntelligentThresholdConfig) : List (ℚ × ℚ) :=
  l.map fun c => (c.start_hour, c.end_hour)

/-! ## Theorems -/

/-- C6 counterexample: a provider call that fails on every attempt is
attempted 4 times — `for attempt in range(max_retries + 1)` with
`max_retries = 3` — refuting "attempted at most 3 times". -/
theorem C6_counterexample :
    (execute_with_retry (fun _ => Except.error () : ℕ → Except Unit Unit)).calls = 4 ∧
      ¬ (execute_with_retry (fun _ => Except.error () : ℕ → Except Unit Unit)).calls ≤ 3 := by
  decide

/-- C6 (amended): each provider call is attempted at most 4 times (one
initial attempt plus up to `max_retries = 3` retries); consecutive attempts
are separated by sleeps of `2·2^attempt` seconds; and a failure is surfaced
only after the final 4th attempt, carrying that attempt's error. -/
theorem C6_retry_at_most_four_attempts {ε α : Type} (f : ℕ → Except ε α) :
    (execute_with_retry f).calls ≤ 4 ∧
    (execute_with_retry f).sleeps =
      (List.range ((execute_with_retry f).calls - 1)).map (fun attempt => 2 * 2 ^ attempt) ∧
    (∀ e, (execute_with_retry f).result = .error e →
      (execute_with_retry f).calls = 4 ∧ f 3 = .error e) := by
  unfold execute_with_retry
  rcases h0 : f 0 with e0 | a0 <;> rcases h1 : f 1 with e1 | a1 <;>
    rcases h2 : f 2 with e2 | a2 <;> rcases h3 : f 3 with e3 | a3 <;>
    refine ⟨by simp [retryCountdown, h0, h1, h2, h3],
      by simp [retryCountdown, h0, h1, h2, h3, List.range_succ],
      fun e he => ?_⟩ <;>
    simp_all [retryCountdown]

/-- C6 witness: the amended theorem applied to the always-failing call. -/
theorem C6_retry_at_most_four_attempts_witness :
    (execute_with_retry (fun _ => Except.error () : ℕ → Except Unit Unit)).calls = 4 ∧
      (fun _ => Except.error () : ℕ → Except Unit Unit) 3 = .error () :=
  (C6_retry_at_most_four_attempts (fun _ => Except.error () : ℕ → Except Unit Unit)).2.2 ()
    (by decide)

/-- C1: the spec's down-direction clamp is not applied by the code.  On the
constant series `10` sampled hourly with `sensitivity = 1/2` (so
`c = 1.2`), the single DBSCAN cluster gives `M = 10` after un-negation, and
with `min_value = 9` the claim demands `max(M/c, min_value) = 9`; the code
returns the unclamped `M/c = 25/3` (the clamped value is computed into a
dead local and discarded). -/
theorem C1_down_min_value_clamp_dead_store :
    recommend_general_threshold [0, 3600, 7200, 10800] [10, 10, 10, 10] 1 0
        (some 9) none .down (1 / 2) = .ok ⟨true, 25 / 3⟩ ∧
      ((25 : ℚ) / 3 ≠ max (25 / 3) 9) := by
  decide

/-- C4 counterexample: on empty inputs, `max(timestamp_list)` — evaluated
*before* the `try` block — raises `ValueError`, which propagates to the
caller instead of being absorbed into `False`. -/
theorem C4_counterexample :
    detect {} (fun _ _ => none) [] [] = .error () := by
  decide

/-- C4 (amended): for every *non-empty* timestamp list the detector returns
a Boolean and never propagates an exception — everything after the
time-span validation runs inside `try`/`except` and any failure yields
`False`. -/
theorem C4_detect_total_on_nonempty (prm : PeriodDetectorParams)
    (pearson : List ℚ → List ℚ → Option ℚ) (ts vs : List ℚ) (hts : ts ≠ []) :
    ∃ b, detect prm pearson ts vs = .ok b := by
  match ts, hts with
  | t :: ts2, _ =>
    unfold detect
    simp only [List.max?, List.min?]
    split <;> exact ⟨_, rfl⟩

/-- C4 witness: a two-point series (any values) yields a Boolean verdict. -/
theorem C4_detect_total_on_nonempty_witness :
    ∃ b, detect {} (fun _ _ => none) [0, 172800] [1, 2] = .ok b :=
  C4_detect_total_on_nonempty {} (fun _ _ => none) [0, 172800] [1, 2] (by decide)

/-- C10: `merge_metric_threshold_results` returns a list of the same length
and order as its input; for each element the `name`, `labels`,
`unique_key`, `status` and `error_message` fields are unchanged and only
`thresholds` is replaced by that element's merged thresholds. -/
theorem C10_merge_metric_results_frame (maxBlocks : ℕ)
    (results : List MetricThresholdResult) :
    (merge_metric_threshold_results maxBlocks results).length = results.length ∧
    ∀ (i : ℕ) (r : MetricThresholdResult), results[i]? = some r →
      (merge_metric_threshold_results maxBlocks results)[i]? =
        some (⟨r.name, r.labels, r.unique_key,
          merge_continuous_thresholds maxBlocks r.thresholds, r.status,
          r.error_message⟩ : MetricThresholdResult) := by
  constructor
  · simp [merge_metric_threshold_results]
  · intro i r hr
    simp only [merge_metric_threshold_results, List.getElem?_map, hr, Option.map_some']

/-- C10 witness: a singleton list, element read back with the merged
thresholds and all other fields intact. -/
theorem C10_merge_metric_results_frame_witness :
    (merge_metric_threshold_results 8
        [⟨"m", [("a", "b")], "k", [], "Success", ""⟩])[0]? =
      some ⟨"m", [("a", "b")], "k", merge_continuous_thresholds 8 [], "Success", ""⟩ :=
  (C10_merge_metric_results_frame 8 [⟨"m", [("a", "b")], "k", [], "Success", ""⟩]).2 0
    ⟨"m", [("a", "b")], "k", [], "Success", ""⟩ rfl

/-- Transitivity of `TaskRequest.__lt__` (it is the lexicographic strict
order on (priority descending, created_at ascending)). -/
theorem TaskRequest.lt_trans {a b c : TaskRequest} (hab : TaskRequest.lt a b = true)
    (hbc : TaskRequest.lt b c = true) : TaskRequest.lt a c = true := by
  unfold TaskRequest.lt at *
  by_cases h1 : a.priority = b.priority <;> by_cases h2 : b.priority = c.priority <;>
    by_cases h3 : a.priority = c.priority <;>
    simp_all <;> first | omega | linarith

/-- Strict-weak-order exchange: if `y` is below `m` but not below `b`, then
`b` is below `m`. -/
theorem TaskRequest.lt_of_not_lt {y b m : TaskRequest} (hym : TaskRequest.lt y m = true)
    (hyb : TaskRequest.lt y b = false) : TaskRequest.lt b m = true := by
  unfold TaskRequest.lt at *
  by_cases h1 : y.priority = m.priority <;> by_cases h2 : y.priority = b.priority <;>
    by_cases h3 : b.priority = m.priority <;>
    simp_all <;> first | omega | linarith

/-- Unfolding of "`x` is not below `r`" into the priority/FIFO reading. -/
theorem TaskRequest.not_lt_iff (x r : TaskRequest) :
    TaskRequest.lt x r = false ↔
      x.priority ≤ r.priority ∧
        (x.priority = r.priority → r.created_at ≤ x.created_at) := by
  unfold TaskRequest.lt
  by_cases h : x.priority = r.priority
  · simp [h, not_lt]
  · simp [h, not_lt]

/-- The scan of `heappop_min` selects an element below which no element of
the queue sits in the `__lt__` order. -/
theorem foldlMin_not_lt (xs : List TaskRequest) :
    ∀ b x : TaskRequest, x = b ∨ x ∈ xs →
      TaskRequest.lt x
        (xs.foldl (fun best y => if TaskRequest.lt y best then y else best) b) = false := by
  induction xs with
  | nil =>
    intro b x hx
    rcases hx with hxb | hmem
    · rw [hxb]
      simp only [List.foldl]
      unfold TaskRequest.lt
      simp
    · cases hmem
  | cons y ys ih =>
    intro b x hx
    simp only [List.foldl]
    by_cases hyb : TaskRequest.lt y b = true
    · simp only [hyb, if_true]
      rcases hx with hxb | hxy
      · by_contra hbm
        have hbm2 : TaskRequest.lt x
            (ys.foldl (fun best y => if TaskRequest.lt y best then y else best) y) = true := by
          revert hbm
          cases TaskRequest.lt x (ys.foldl (fun best y =>
            if TaskRequest.lt y best then y else best) y) <;> simp
        have hyx : TaskRequest.lt y x = true := hxb ▸ hyb
        have := TaskRequest.lt_trans hyx hbm2
        rw [ih y y (Or.inl rfl)] at this
        cases this
      · rcases List.mem_cons.mp hxy with hxy2 | hxys
        · exact hxy2 ▸ ih y y (Or.inl rfl)
        · exact ih y x (Or.inr hxys)
    · have hyb2 : TaskRequest.lt y b = false := by
        revert hyb
        cases TaskRequest.lt y b <;> simp
      simp only [hyb2, Bool.false_eq_true, if_false]
      rcases hx with hxb | hxy
      · exact hxb ▸ ih b b (Or.inl rfl)
      · rcases List.mem_cons.mp hxy with hxy2 | hxys
        · by_contra hym
          have hym2 : TaskRequest.lt x
              (ys.foldl (fun best y => if TaskRequest.lt y best then y else best) b) = true := by
            revert hym
            cases TaskRequest.lt x (ys.foldl (fun best y =>
              if TaskRequest.lt y best then y else best) b) <;> simp
          have := TaskRequest.lt_of_not_lt hym2 (hxy2 ▸ hyb2)
          rw [ih b b (Or.inl rfl)] at this
          cases this
        · exact ih b x (Or.inr hxys)

/-- The scan of `heappop_min` selects an element of the queue. -/
theorem foldlMin_mem (xs : List TaskRequest) :
    ∀ b : TaskRequest,
      xs.foldl (fun best y => if TaskRequest.lt y best then y else best) b ∈ b :: xs := by
  induction xs with
  | nil => intro b; simp [List.foldl]
  | cons y ys ih =>
    intro b
    simp only [List.foldl]
    rcases List.mem_cons.mp (ih (if TaskRequest.lt y b then y else b)) with h | h
    · rw [h]
      by_cases hyb : TaskRequest.lt y b = true <;> simp [hyb]
    · exact List.mem_cons.mpr (Or.inr (List.mem_cons.mpr (Or.inr h)))

/-- C3: for every state of the scheduler's queue, an admission pops a queued
request whose `priority` value is maximal, and among requests of equal
priority one with the earliest `created_at` (FIFO within a priority class)
— the contract delivered by `TaskRequest.__lt__` together with
`heapq.heappop`. -/
theorem C3_admission_pops_highest_priority (q : List TaskRequest) (r : TaskRequest)
    (rest : List TaskRequest) (h : heappop_min q = some (r, rest)) :
    r ∈ q ∧ ∀ x ∈ q, x.priority ≤ r.priority ∧
      (x.priority = r.priority → r.created_at ≤ x.created_at) := by
  match q, h with
  | x :: xs, h =>
    simp only [heappop_min, Option.some_inj, Prod.mk.injEq] at h
    have hr : xs.foldl (fun best y => if TaskRequest.lt y best then y else best) x = r := h.1
    constructor
    · exact hr ▸ foldlMin_mem xs x
    · intro z hz
      have hz2 : z = x ∨ z ∈ xs := by
        rcases List.mem_cons.mp hz with hzx | hzs
        · exact Or.inl hzx
        · exact Or.inr hzs
      have hnot := foldlMin_not_lt xs x z hz2
      rw [hr] at hnot
      exact (TaskRequest.not_lt_iff z r).mp hnot

/-- C3 witness: spec scenario 4 — queued submissions LOW@0, HIGH@1,
NORMAL@2, HIGH@3 (priority values 0 < 1 < 2); the admission pops HIGH@1,
which in particular dominates the LOW@0 request. -/
theorem C3_admission_pops_highest_priority_witness :
    (⟨"t1", 1, "d", 5, 0, 1 / 2, 0⟩ : TaskRequest).priority ≤
        (⟨"t2", 1, "d", 5, 2, 1 / 2, 1⟩ : TaskRequest).priority ∧
      ((⟨"t1", 1, "d", 5, 0, 1 / 2, 0⟩ : TaskRequest).priority =
          (⟨"t2", 1, "d", 5, 2, 1 / 2, 1⟩ : TaskRequest).priority →
        (⟨"t2", 1, "d", 5, 2, 1 / 2, 1⟩ : TaskRequest).created_at ≤
          (⟨"t1", 1, "d", 5, 0, 1 / 2, 0⟩ : TaskRequest).created_at) :=
  (C3_admission_pops_highest_priority
      [⟨"t1", 1, "d", 5, 0, 1 / 2, 0⟩, ⟨"t2", 1, "d", 5, 2, 1 / 2, 1⟩,
        ⟨"t3", 1, "d", 5, 1, 1 / 2, 2⟩, ⟨"t4", 1, "d", 5, 2, 1 / 2, 3⟩]
      ⟨"t2", 1, "d", 5, 2, 1 / 2, 1⟩
      [⟨"t1", 1, "d", 5, 0, 1 / 2, 0⟩, ⟨"t3", 1, "d", 5, 1, 1 / 2, 2⟩,
        ⟨"t4", 1, "d", 5, 2, 1 / 2, 3⟩]
      (by decide)).2
    ⟨"t1", 1, "d", 5, 0, 1 / 2, 0⟩ (by simp)

/-- No grants are counted once every remaining poll instant lies beyond the
window. -/
theorem grantsInWindow_zero_of_late (Q lo hi : ℚ) :
    ∀ (times : List ℚ) (s : BucketState), (∀ t ∈ times, hi < t) →
      grantsInWindow Q s lo hi times = 0 := by
  intro times
  induction times with
  | nil => intro s _; rfl
  | cons t rest ih =>
    intro s hall
    have hhi : decide (t ≤ hi) = false := by
      simp [not_le.mpr (hall t (by simp))]
    have hrec := ih (acquireStep Q s t).2 fun t2 ht2 => hall t2 (by simp [ht2])
    simp only [grantsInWindow, hhi, Bool.and_false, Bool.false_eq_true, if_false, hrec]

/-- Telescoping bound: from a bucket state with at most `Q` tokens, the
grants counted up to `hi` are bounded by the current tokens plus the refill
budget `Q · (hi − last_refill)`. -/
theorem grants_le_tokens_add (Q lo hi : ℚ) (hQ : 0 ≤ Q) :
    ∀ (times : List ℚ) (s : BucketState),
      0 ≤ s.tokens → s.tokens ≤ Q → times.Pairwise (· ≤ ·) →
      (∀ t ∈ times, s.last_refill ≤ t) → s.last_refill ≤ hi →
      (grantsInWindow Q s lo hi times : ℚ) ≤ s.tokens + Q * (hi - s.last_refill) := by
  intro times
  induction times with
  | nil =>
    intro s h0 _ _ _ hlh
    have := mul_nonneg hQ (sub_nonneg.mpr hlh)
    simp only [grantsInWindow, Nat.cast_zero]
    linarith
  | cons t rest ih =>
    intro s h0 hsQ hpw hge hlh
    have ht : s.last_refill ≤ t := hge t (by simp)
    have hrest : ∀ x ∈ rest, t ≤ x := (List.pairwise_cons.mp hpw).1
    have hpw2 : rest.Pairwise (· ≤ ·) := (List.pairwise_cons.mp hpw).2
    by_cases hthi : t ≤ hi
    · have htk0 : (0:ℚ) ≤ min Q (s.tokens + (t - s.last_refill) * Q) :=
        le_min hQ (by nlinarith)
      have htkQ : min Q (s.tokens + (t - s.last_refill) * Q) ≤ Q := min_le_left _ _
      have htkr : min Q (s.tokens + (t - s.last_refill) * Q) ≤
          s.tokens + (t - s.last_refill) * Q := min_le_right _ _
      have hexpand : (t - s.last_refill) * Q + Q * (hi - t) = Q * (hi - s.last_refill) := by
        ring
      by_cases hgr : 1 ≤ min Q (s.tokens + (t - s.last_refill) * Q)
      · have hstep : acquireStep Q s t =
            (true, ⟨min Q (s.tokens + (t - s.last_refill) * Q) - 1, t⟩) := by
          unfold acquireStep
          rw [if_pos hgr]
        have hrec : (grantsInWindow Q ⟨min Q (s.tokens + (t - s.last_refill) * Q) - 1, t⟩
              lo hi rest : ℚ) ≤
            (min Q (s.tokens + (t - s.last_refill) * Q) - 1) + Q * (hi - t) :=
          ih ⟨min Q (s.tokens + (t - s.last_refill) * Q) - 1, t⟩
            (show (0:ℚ) ≤ min Q (s.tokens + (t - s.last_refill) * Q) - 1 by linarith)
            (show min Q (s.tokens + (t - s.last_refill) * Q) - 1 ≤ Q by linarith)
            hpw2 hrest hthi
        simp only [grantsInWindow, hstep]
        have hcnt : ((if (true && decide (lo ≤ t) && decide (t ≤ hi)) = true
            then (1:ℕ) else 0) : ℚ) ≤ 1 := by
          split <;> simp
        push_cast
        push_cast at hrec hcnt
        linarith
      · have hstep : acquireStep Q s t =
            (false, ⟨min Q (s.tokens + (t - s.last_refill) * Q), t⟩) := by
          unfold acquireStep
          rw [if_neg hgr]
        have hrec : (grantsInWindow Q ⟨min Q (s.tokens + (t - s.last_refill) * Q), t⟩
              lo hi rest : ℚ) ≤
            min Q (s.tokens + (t - s.last_refill) * Q) + Q * (hi - t) :=
          ih ⟨min Q (s.tokens + (t - s.last_refill) * Q), t⟩ htk0 htkQ hpw2 hrest hthi
        simp only [grantsInWindow, hstep, Bool.false_and, Bool.false_eq_true, if_false,
          Nat.cast_add, Nat.cast_zero]
        push_cast at hrec
        linarith
    · have hall : ∀ x ∈ t :: rest, hi < x := by
        intro x hx
        rcases List.mem_cons.mp hx with rfl | hx2
        · exact not_le.mp hthi
        · exact lt_of_lt_of_le (not_le.mp hthi) (hrest x hx2)
      rw [grantsInWindow_zero_of_late Q lo hi (t :: rest) s hall]
      have := mul_nonneg hQ (sub_nonneg.mpr hlh)
      simp only [Nat.cast_zero]
      linarith

/-- Refilling in two steps (first to time `w`, then to `t`) is the same as
refilling once: the cap at `Q` commutes with further elapsed refill. -/
theorem acquireStep_advance (Q : ℚ) (hQ : 0 ≤ Q) (s : BucketState) (w t : ℚ)
    (_h1 : s.last_refill ≤ w) (h2 : w ≤ t) :
    acquireStep Q ⟨min Q (s.tokens + (w - s.last_refill) * Q), w⟩ t =
      acquireStep Q s t := by
  have key : min Q (min Q (s.tokens + (w - s.last_refill) * Q) + (t - w) * Q) =
      min Q (s.tokens + (t - s.last_refill) * Q) := by
    rcases le_or_lt (s.tokens + (w - s.last_refill) * Q) Q with hle | hgt
    · rw [min_eq_right hle]
      congr 1
      ring
    · have hnn : 0 ≤ (t - w) * Q := mul_nonneg (by linarith) hQ
      have hmono : (w - s.last_refill) * Q ≤ (t - s.last_refill) * Q :=
        mul_le_mul_of_nonneg_right (by linarith) hQ
      rw [min_eq_left (le_of_lt hgt), min_eq_left (by linarith),
        min_eq_left (by linarith)]
  simp only [acquireStep, key]

/-- Replacing the state by its refill-advanced version at a time `w` before
every remaining poll leaves the granted sequence unchanged. -/
theorem grantsInWindow_advance (Q : ℚ) (hQ : 0 ≤ Q) (lo hi : ℚ) (s : BucketState)
    (w : ℚ) (hlast : s.last_refill ≤ w) :
    ∀ times : List ℚ, (∀ t ∈ times, w ≤ t) →
      grantsInWindow Q ⟨min Q (s.tokens + (w - s.last_refill) * Q), w⟩ lo hi times =
        grantsInWindow Q s lo hi times := by
  intro times
  cases times with
  | nil => intro _; rfl
  | cons t rest =>
    intro hall
    simp only [grantsInWindow]
    rw [acquireStep_advance Q hQ s w t hlast (hall t (by simp))]

/-- Core window bound: whatever the bucket's history, at most
`Q + Q · (hi − lo)` acquisitions are granted inside `[lo, hi]`. -/
theorem grants_window_core (Q lo hi : ℚ) (hQ : 0 ≤ Q) (hlh : lo ≤ hi) :
    ∀ (times : List ℚ) (s : BucketState),
      0 ≤ s.tokens → s.tokens ≤ Q → times.Pairwise (· ≤ ·) →
      (∀ t ∈ times, s.last_refill ≤ t) →
      (grantsInWindow Q s lo hi times : ℚ) ≤ Q + Q * (hi - lo) := by
  intro times
  induction times with
  | nil =>
    intro s _ _ _ _
    have := mul_nonneg hQ (sub_nonneg.mpr hlh)
    simp only [grantsInWindow, Nat.cast_zero]
    linarith
  | cons t rest ih =>
    intro s h0 hsQ hpw hge
    have ht : s.last_refill ≤ t := hge t (by simp)
    have hrest : ∀ x ∈ rest, t ≤ x := (List.pairwise_cons.mp hpw).1
    have hpw2 : rest.Pairwise (· ≤ ·) := (List.pairwise_cons.mp hpw).2
    by_cases hlo : t < lo
    · have hcond : decide (lo ≤ t) = false := by simp [not_le.mpr hlo]
      have htk0 : (0:ℚ) ≤ min Q (s.tokens + (t - s.last_refill) * Q) :=
        le_min hQ (by nlinarith)
      have htkQ : min Q (s.tokens + (t - s.last_refill) * Q) ≤ Q := min_le_left _ _
      by_cases hgr : 1 ≤ min Q (s.tokens + (t - s.last_refill) * Q)
      · have hstep : acquireStep Q s t =
            (true, ⟨min Q (s.tokens + (t - s.last_refill) * Q) - 1, t⟩) := by
          unfold acquireStep
          rw [if_pos hgr]
        have hrec : (grantsInWindow Q ⟨min Q (s.tokens + (t - s.last_refill) * Q) - 1, t⟩
              lo hi rest : ℚ) ≤ Q + Q * (hi - lo) :=
          ih ⟨min Q (s.tokens + (t - s.last_refill) * Q) - 1, t⟩
            (show (0:ℚ) ≤ min Q (s.tokens + (t - s.last_refill) * Q) - 1 by linarith)
            (show min Q (s.tokens + (t - s.last_refill) * Q) - 1 ≤ Q by linarith)
            hpw2 hrest
        simp only [grantsInWindow, hstep, hcond, Bool.and_false, Bool.false_and,
          Bool.false_eq_true, if_false, Nat.cast_add, Nat.cast_zero, zero_add]
        exact_mod_cast hrec
      · have hstep : acquireStep Q s t =
            (false, ⟨min Q (s.tokens + (t - s.last_refill) * Q), t⟩) := by
          unfold acquireStep
          rw [if_neg hgr]
        have hrec : (grantsInWindow Q ⟨min Q (s.tokens + (t - s.last_refill) * Q), t⟩
              lo hi rest : ℚ) ≤ Q + Q * (hi - lo) :=
          ih ⟨min Q (s.tokens + (t - s.last_refill) * Q), t⟩ htk0 htkQ hpw2 hrest
        simp only [grantsInWindow, hstep, hcond, Bool.and_false, Bool.false_and,
          Bool.false_eq_true, if_false, Nat.cast_add, Nat.cast_zero, zero_add]
        exact_mod_cast hrec
    · push_neg at hlo
      by_cases hhl : hi < s.last_refill
      · have hall : ∀ x ∈ t :: rest, hi < x := by
          intro x hx
          rcases List.mem_cons.mp hx with rfl | hx2
          · exact lt_of_lt_of_le hhl ht
          · exact lt_of_lt_of_le hhl (le_trans ht (hrest x hx2))
        rw [grantsInWindow_zero_of_late Q lo hi (t :: rest) s hall]
        have := mul_nonneg hQ (sub_nonneg.mpr hlh)
        simp only [Nat.cast_zero]
        linarith
      · push_neg at hhl
        by_cases hwl : lo ≤ s.last_refill
        · have hb := grants_le_tokens_add Q lo hi hQ (t :: rest) s h0 hsQ hpw hge hhl
          have hmono : Q * (hi - s.last_refill) ≤ Q * (hi - lo) :=
            mul_le_mul_of_nonneg_left (by linarith) hQ
          linarith
        · push_neg at hwl
          have hallw : ∀ x ∈ t :: rest, lo ≤ x := by
            intro x hx
            rcases List.mem_cons.mp hx with rfl | hx2
            · exact hlo
            · exact le_trans hlo (hrest x hx2)
          rw [← grantsInWindow_advance Q hQ lo hi s lo (le_of_lt hwl) (t :: rest) hallw]
          have htk0 : (0:ℚ) ≤ min Q (s.tokens + (lo - s.last_refill) * Q) :=
            le_min hQ (by nlinarith)
          have hb : (grantsInWindow Q ⟨min Q (s.tokens + (lo - s.last_refill) * Q), lo⟩
                lo hi (t :: rest) : ℚ) ≤
              min Q (s.tokens + (lo - s.last_refill) * Q) + Q * (hi - lo) :=
            grants_le_tokens_add Q lo hi hQ (t :: rest)
              ⟨min Q (s.tokens + (lo - s.last_refill) * Q), lo⟩ htk0 (min_le_left _ _)
              hpw hallw hlh
          have := min_le_left Q (s.tokens + (lo - s.last_refill) * Q)
          linarith

/-- C7 counterexample: a bucket configured at `qps = 2` starts with 2
tokens, so two acquisitions at the creation instant are both granted —
2 grants in a window of length `T = 0`, exceeding `Q·T + 1 = 1`. -/
theorem C7_counterexample :
    grantsInWindow 2 (initBucket 2 0) 0 0 [0, 0] = 2 ∧
      ¬ ((grantsInWindow 2 (initBucket 2 0) 0 0 [0, 0] : ℚ) ≤ 2 * 0 + 1) := by
  decide

/-- C7 (amended): for every token bucket configured at rate `Q ≥ 1`
(initial tokens `Q`, refill `Q` tokens/second capped at `Q`, one token per
acquisition), the number of acquisitions granted within any time interval of
length `T` is at most `Q·T + Q`. -/
theorem C7_rate_limit_burst_bound (Q : ℚ) (hQ : 1 ≤ Q) (t0 lo T : ℚ) (hT : 0 ≤ T)
    (times : List ℚ) (hpw : times.Pairwise (· ≤ ·)) (hge : ∀ t ∈ times, t0 ≤ t) :
    (grantsInWindow Q (initBucket Q t0) lo (lo + T) times : ℚ) ≤ Q * T + Q := by
  have hb := grants_window_core Q lo (lo + T) (by linarith) (by linarith) times
    (initBucket Q t0) (by simp [initBucket]; linarith) (by simp [initBucket]) hpw
    (by simpa [initBucket] using hge)
  have hring : Q * (lo + T - lo) = Q * T := by ring
  linarith

/-- C7 witness: the amended bound applied at `Q = 2`, two polls at the
creation instant, window `[0, 0]`. -/
theorem C7_rate_limit_burst_bound_witness :
    (grantsInWindow 2 (initBucket 2 0) 0 (0 + 0) [0, 0] : ℚ) ≤ 2 * 0 + 2 :=
  C7_rate_limit_burst_bound 2 (by decide) 0 0 0 (by decide) [0, 0] (by decide) (by decide)

/-- A row produced by the per-range loop ends up in the accumulated row
list. -/
theorem buildSplitRows_ok_mem (f : ℕ → Except Unit SplitRow) :
    ∀ (idxs : List ℕ) (rows : List SplitRow), buildSplitRows f idxs = .ok rows →
      ∀ i ∈ idxs, ∀ row, f i = .ok row → row ∈ rows := by
  intro idxs
  induction idxs with
  | nil => intro rows _ i hi; cases hi
  | cons j js ih =>
    intro rows h i hi row hrow
    unfold buildSplitRows at h
    cases hj : f j with
    | error e => rw [hj] at h; cases h
    | ok r0 =>
      rw [hj] at h
      cases hrest : buildSplitRows f js with
      | error e => rw [hrest] at h; cases h
      | ok rs =>
        rw [hrest] at h
        cases h
        rcases List.mem_cons.mp hi with rfl | hjs
        · rw [hj, Except.ok.injEq] at hrow
          exact hrow ▸ List.mem_cons_self _ _
        · exact List.mem_cons_of_mem _ (ih rs hrest i hjs row hrow)

/-- C5 counterexample: with a single data point and `min_ts_length = 24`,
every range is insufficient; the emitted blocks carry `window_size = None`,
not `1` (the `1.0` in the source row is the sort *ratio*, not a window
size). -/
theorem C5_counterexample :
    process_time_split_periods 0 default_time_split_ranges [0] [10] 5 true none none
        none 24 .up (1 / 2) =
      .ok [⟨0, 6, none, none, none⟩, ⟨6, 12, none, none, none⟩,
        ⟨12, 18, none, none, none⟩, ⟨18, 24, none, none, none⟩] ∧
    ((((split_data_by_ranges 0 default_time_split_ranges [0] [10]).getD 0 []).length : ℚ) <
      (24 : ℚ) / 24 * ((default_time_split_ranges.getD 0 (0, 0)).2 -
        (default_time_split_ranges.getD 0 (0, 0)).1)) ∧
    (⟨0, 6, none, none, none⟩ : ThresholdGroup).window_size ≠ some 1 := by
  decide

/-- C5 (amended): in the time-split branch, every hour range whose data
length is below `min_ts_length·(end−start)/24` produces a block whose
`upper_bound` and `lower_bound` are both null and whose `window_size` is
null (`None`) — not `1`; the `1.0` stored in the insufficient row is its
ratio sort key. -/
theorem C5_insufficient_range_yields_null_block
    (tzOffset : ℤ) (ranges : List (ℚ × ℚ)) (ts vs : List ℚ) (dws : ℤ) (auto : Bool)
    (mn mx nt : Option ℚ) (mtl : ℤ) (dir : Direction) (sens : ℚ)
    (out : List ThresholdGroup) (i : ℕ) (hi : i < ranges.length)
    (hout : process_time_split_periods tzOffset ranges ts vs dws auto mn mx nt mtl dir
      sens = .ok out)
    (hins : (((split_data_by_ranges tzOffset ranges ts vs).getD i []).length : ℚ) <
      (mtl : ℚ) / 24 * ((ranges.getD i (0, 0)).2 - (ranges.getD i (0, 0)).1)) :
    ∃ g ∈ out, g.start_hour = (ranges.getD i (0, 0)).1 ∧
      g.end_hour = (ranges.getD i (0, 0)).2 ∧
      g.upper_bound = none ∧ g.lower_bound = none ∧ g.window_size = none := by
  have hrow : splitRowOf tzOffset ranges ts vs dws auto mn mx nt mtl dir sens i =
      .ok ⟨i, none, none, none, none, 1⟩ := by
    unfold splitRowOf
    rw [if_pos hins]
  unfold process_time_split_periods at hout
  cases hbuild : buildSplitRows
      (splitRowOf tzOffset ranges ts vs dws auto mn mx nt mtl dir sens)
      (List.range ranges.length) with
  | error e => rw [hbuild] at hout; cases hout
  | ok rows =>
    rw [hbuild, Except.ok.injEq] at hout
    have hmem : (⟨i, none, none, none, none, 1⟩ : SplitRow) ∈ rows :=
      buildSplitRows_ok_mem _ _ rows hbuild i (List.mem_range.mpr hi) _ hrow
    have hmem2 : (⟨i, none, none, none, none, 1⟩ : SplitRow) ∈
        rows.insertionSort geRatio :=
      ((List.perm_insertionSort geRatio rows).mem_iff).mpr hmem
    obtain ⟨k, hk⟩ := List.mem_iff_getElem?.mp hmem2
    have henum : (k, (⟨i, none, none, none, none, 1⟩ : SplitRow)) ∈
        (rows.insertionSort geRatio).enum :=
      List.mk_mem_enum_iff_getElem?.mpr hk
    refine ⟨_, hout ▸ List.mem_map.mpr
      ⟨((k, (⟨i, none, none, none, none, 1⟩ : SplitRow)) : ℕ × SplitRow), henum, rfl⟩,
      ?_, ?_, ?_, ?_, ?_⟩
    · rfl
    · rfl
    · cases dir <;> simp
    · cases dir <;> simp
    · simp

/-- C5 witness: the previous theorem applied to the counterexample input;
range 0 is insufficient and yields the block `(0, 6, None, None, None)`. -/
theorem C5_insufficient_range_yields_null_block_witness :
    ∃ g ∈ [(⟨0, 6, none, none, none⟩ : ThresholdGroup), ⟨6, 12, none, none, none⟩,
        ⟨12, 18, none, none, none⟩, ⟨18, 24, none, none, none⟩],
      g.start_hour = (default_time_split_ranges.getD 0 (0, 0)).1 ∧
      g.end_hour = (default_time_split_ranges.getD 0 (0, 0)).2 ∧
      g.upper_bound = none ∧ g.lower_bound = none ∧ g.window_size = none :=
  C5_insufficient_range_yields_null_block 0 default_time_split_ranges [0] [10] 5 true
    none none none 24 .up (1 / 2)
    [⟨0, 6, none, none, none⟩, ⟨6, 12, none, none, none⟩,
      ⟨12, 18, none, none, none⟩, ⟨18, 24, none, none, none⟩] 0 (by decide) (by decide)
    (by decide)

/-! ### Chain-partition lemmas -/

theorem chainFrom_head (l : List IntelligentThresholdConfig) (a b : ℚ)
    (h : ChainFrom a b l) (hne : l ≠ []) : (l.headD junkConfig).start_hour = a := by
  cases l with
  | nil => exact absurd rfl hne
  | cons c l2 => exact h.1

theorem chainFrom_last : ∀ (l : List IntelligentThresholdConfig)
    (dflt : IntelligentThresholdConfig) (a b : ℚ), ChainFrom a b l → l ≠ [] →
    (l.getLastD dflt).end_hour = b := by
  intro l
  induction l with
  | nil => intro dflt a b _ hne; exact absurd rfl hne
  | cons c l2 ih =>
    intro dflt a b h _
    cases l2 with
    | nil => exact h.2.2
    | cons d l3 => exact ih c c.end_hour b h.2.2 (by simp)

theorem chainFrom_lt : ∀ (l : List IntelligentThresholdConfig) (a b : ℚ),
    ChainFrom a b l → l ≠ [] → a < b := by
  intro l
  induction l with
  | nil => intro a b _ hne; exact absurd rfl hne
  | cons c l2 ih =>
    intro a b h _
    cases l2 with
    | nil =>
      have hb : c.end_hour = b := h.2.2
      rw [← h.1, ← hb]
      exact h.2.1
    | cons d l3 =>
      have h2 := ih c.end_hour b h.2.2 (by simp)
      have h1 := h.1
      have h3 := h.2.1
      linarith

theorem chainFrom_le (l : List IntelligentThresholdConfig) (a b : ℚ)
    (h : ChainFrom a b l) : a ≤ b := by
  cases l with
  | nil => exact le_of_eq h
  | cons c l2 => exact le_of_lt (chainFrom_lt _ a b h (by simp))

theorem chainFrom_append_one : ∀ (l : List IntelligentThresholdConfig) (a m : ℚ),
    ChainFrom a m l → ∀ y : IntelligentThresholdConfig, y.start_hour = m →
    y.start_hour < y.end_hour → ChainFrom a y.end_hour (l ++ [y]) := by
  intro l
  induction l with
  | nil =>
    intro a m h y hy1 hy2
    exact ⟨by rw [hy1, h], hy2, rfl⟩
  | cons c l2 ih =>
    intro a m h y hy1 hy2
    exact ⟨h.1, h.2.1, ih c.end_hour m h.2.2 y hy1 hy2⟩

theorem chainFrom_append_split : ∀ (xs ys : List IntelligentThresholdConfig) (a b : ℚ),
    ChainFrom a b (xs ++ ys) → ∃ m, ChainFrom a m xs ∧ ChainFrom m b ys := by
  intro xs
  induction xs with
  | nil => intro ys a b h; exact ⟨a, rfl, h⟩
  | cons c xs2 ih =>
    intro ys a b h
    obtain ⟨m, h1, h2⟩ := ih ys c.end_hour b h.2.2
    exact ⟨m, ⟨h.1, h.2.1, h1⟩, h2⟩

theorem chainFrom_bounds : ∀ (l : List IntelligentThresholdConfig) (a b : ℚ),
    ChainFrom a b l → ∀ c ∈ l,
      a ≤ c.start_hour ∧ c.start_hour < c.end_hour ∧ c.end_hour ≤ b := by
  intro l
  induction l with
  | nil => intro a b _ c hc; cases hc
  | cons c0 l2 ih =>
    intro a b h c hc
    rcases List.mem_cons.mp hc with rfl | hc2
    · exact ⟨le_of_eq h.1.symm, h.2.1, chainFrom_le l2 c.end_hour b h.2.2⟩
    · have h3 := ih c0.end_hour b h.2.2 c hc2
      have h1 := h.1
      have h2 := h.2.1
      exact ⟨by linarith [h3.1], h3.2.1, h3.2.2⟩

theorem chainFrom_pairwise_blocks : ∀ (l : List IntelligentThresholdConfig) (a b : ℚ),
    ChainFrom a b l → l.Pairwise (fun x y => x.start_hour < y.start_hour) := by
  intro l
  induction l with
  | nil => intro a b _; exact List.Pairwise.nil
  | cons c l2 ih =>
    intro a b h
    refine List.pairwise_cons.mpr ⟨fun y hy => ?_, ih c.end_hour b h.2.2⟩
    have hb := (chainFrom_bounds l2 c.end_hour b h.2.2 y hy).1
    have h2 := h.2.1
    linarith

theorem chainFrom_of_rangesOf : ∀ (l : List IntelligentThresholdConfig)
    (pairs : List (ℚ × ℚ)) (a b : ℚ), rangesOf l = pairs → PairChainFrom a b pairs →
    ChainFrom a b l := by
  intro l
  induction l with
  | nil =>
    intro pairs a b hr hp
    rw [← hr] at hp
    exact hp
  | cons c l2 ih =>
    intro pairs a b hr hp
    rw [← hr] at hp
    exact ⟨hp.1, hp.2.1, ih (rangesOf l2) c.end_hour b rfl hp.2.2⟩

/-- Two permuted lists of pairs, both sorted by first component, with the
first components of one being distinct, are equal. -/
theorem pairs_sorted_perm_eq : ∀ (l m : List (ℚ × ℚ)), l.Perm m →
    l.Pairwise (fun p q => p.1 ≤ q.1) → m.Pairwise (fun p q => p.1 ≤ q.1) →
    (m.map Prod.fst).Nodup → l = m := by
  intro l
  induction l with
  | nil => intro m hperm _ _ _; exact (List.Perm.nil_eq hperm).symm.symm ▸ hperm.nil_eq
  | cons p l2 ih =>
    intro m hperm hl hm hnd
    cases m with
    | nil => exact absurd hperm.symm (by simp)
    | cons q m2 =>
      by_cases hpq : p = q
      · subst hpq
        have htail := hperm.cons_inv
        rw [ih m2 htail (List.pairwise_cons.mp hl).2 (List.pairwise_cons.mp hm).2
          (by simpa using (List.nodup_cons.mp (by simpa using hnd)).2)]
      · have hpm : p ∈ q :: m2 := hperm.mem_iff.mp (by simp)
        have hpm2 : p ∈ m2 := by
          rcases List.mem_cons.mp hpm with h | h
          · exact absurd h hpq
          · exact h
        have hqm : q ∈ p :: l2 := hperm.symm.mem_iff.mp (by simp)
        have hql2 : q ∈ l2 := by
          rcases List.mem_cons.mp hqm with h | h
          · exact absurd h.symm hpq
          · exact h
        have h1 : p.1 ≤ q.1 := (List.pairwise_cons.mp hl).1 q hql2
        have h2 : q.1 ≤ p.1 := (List.pairwise_cons.mp hm).1 p hpm2
        have heq : q.1 = p.1 := le_antisymm h2 h1
        have : q.1 ∉ m2.map Prod.fst := (List.nodup_cons.mp (by simpa using hnd)).1
        exact absurd (heq ▸ List.mem_map.mpr ⟨p, hpm2, rfl⟩) this

/-! ### Merge stage preserves the chain partition -/

theorem merge_configs_start : ∀ (grp : List IntelligentThresholdConfig), grp ≠ [] →
    (merge_threshold_configs grp).start_hour = (grp.headD junkConfig).start_hour
  | [], h => absurd rfl h
  | [_], _ => rfl
  | _ :: _ :: _, _ => rfl

theorem merge_configs_end : ∀ (grp : List IntelligentThresholdConfig), grp ≠ [] →
    (merge_threshold_configs grp).end_hour = (grp.getLastD junkConfig).end_hour
  | [], h => absurd rfl h
  | [_], _ => rfl
  | _ :: _ :: _, _ => rfl

theorem greedyGo_chain : ∀ (rest grp : List IntelligentThresholdConfig) (a m b : ℚ),
    grp ≠ [] → ChainFrom a m grp → ChainFrom m b rest →
    ChainFrom a b (greedyGo grp rest) := by
  intro rest
  induction rest with
  | nil =>
    intro grp a m b hne hg hr
    show ChainFrom a b [merge_threshold_configs grp]
    refine ⟨?_, ?_, ?_⟩
    · rw [merge_configs_start grp hne]
      exact chainFrom_head grp a m hg hne
    · rw [merge_configs_start grp hne, chainFrom_head grp a m hg hne,
        merge_configs_end grp hne, chainFrom_last grp junkConfig a m hg hne]
      exact chainFrom_lt grp a m hg hne
    · rw [merge_configs_end grp hne, chainFrom_last grp junkConfig a m hg hne]
      exact hr
  | cons y ys ih =>
    intro grp a m b hne hg hr
    have hcont : (grp.getLastD junkConfig).end_hour = y.start_hour := by
      rw [chainFrom_last grp junkConfig a m hg hne, hr.1]
    simp only [greedyGo]
    rw [if_pos hcont]
    by_cases hcm : can_merge_threshold_configs (grp ++ [y]) = true
    · rw [if_pos hcm]
      exact ih (grp ++ [y]) a y.end_hour b (by simp)
        (chainFrom_append_one grp a m hg y hr.1 hr.2.1) hr.2.2
    · rw [if_neg hcm]
      refine ⟨?_, ?_, ?_⟩
      · rw [merge_configs_start grp hne]
        exact chainFrom_head grp a m hg hne
      · rw [merge_configs_start grp hne, chainFrom_head grp a m hg hne,
          merge_configs_end grp hne, chainFrom_last grp junkConfig a m hg hne]
        exact chainFrom_lt grp a m hg hne
      · rw [merge_configs_end grp hne, chainFrom_last grp junkConfig a m hg hne]
        exact ih [y] m y.end_hour b (by simp) ⟨hr.1, hr.2.1, rfl⟩ hr.2.2

theorem mergeAdjacentAt_join : ∀ (blocks : List (List IntelligentThresholdConfig)) (i : ℕ),
    (mergeAdjacentAt blocks i).flatten = blocks.flatten
  | [], _ => rfl
  | [_], 0 => rfl
  | b1 :: b2 :: rest, 0 => by
    simp only [mergeAdjacentAt, List.flatten_cons, List.append_assoc]
  | b :: rest, n + 1 => by
    simp only [mergeAdjacentAt, List.flatten_cons, mergeAdjacentAt_join rest n]

theorem mergeAdjacentAt_length : ∀ (blocks : List (List IntelligentThresholdConfig)) (i : ℕ),
    i + 1 < blocks.length → (mergeAdjacentAt blocks i).length + 1 = blocks.length
  | [], _, h => absurd h (by simp)
  | [_], 0, h => absurd h (by simp)
  | _ :: _ :: _, 0, _ => by simp [mergeAdjacentAt]
  | b :: rest, n + 1, h => by
    have hr := mergeAdjacentAt_length rest n (by simpa using h)
    simp only [mergeAdjacentAt, List.length_cons]
    omega

theorem mergeAdjacentAt_nonempty : ∀ (blocks : List (List IntelligentThresholdConfig))
    (i : ℕ), (∀ g ∈ blocks, g ≠ []) → ∀ g ∈ mergeAdjacentAt blocks i, g ≠ []
  | [], _, h => h
  | [_], 0, h => h
  | b1 :: b2 :: rest, 0, h => by
    intro g hg
    rcases List.mem_cons.mp hg with rfl | hg2
    · intro heq
      exact h b1 (by simp) (List.append_eq_nil.mp heq).1
    · exact h g (by simp [hg2])
  | b :: rest, n + 1, h => by
    intro g hg
    simp only [mergeAdjacentAt] at hg
    rcases List.mem_cons.mp hg with rfl | hg2
    · exact h g (by simp)
    · exact mergeAdjacentAt_nonempty rest n (fun g2 hm => h g2 (by simp [hm])) g hg2

theorem findMinDiffIdx_some : ∀ (l : List (List IntelligentThresholdConfig)) (i : ℕ)
    (p : ℕ × ℚ), (findMinDiffIdx l i (some p)).isSome = true := by
  intro l
  induction l with
  | nil => intro i p; rfl
  | cons b1 l2 ih =>
    intro i p
    cases l2 with
    | nil => rfl
    | cons b2 rest =>
      obtain ⟨j, d⟩ := p
      simp only [findMinDiffIdx]
      by_cases hc : (b1.getLastD junkConfig).end_hour = (b2.headD junkConfig).start_hour
      · rw [if_pos hc]
        by_cases hd : calculate_merge_difference (b1.getLastD junkConfig)
            (b2.headD junkConfig) < d
        · rw [if_pos hd]
          exact ih (i + 1) _
        · rw [if_neg hd]
          exact ih (i + 1) _
      · rw [if_neg hc]
        exact ih (i + 1) _

theorem findMinDiffIdx_isSome_of_contiguous (b1 b2 : List IntelligentThresholdConfig)
    (rest : List (List IntelligentThresholdConfig)) (i : ℕ)
    (hc : (b1.getLastD junkConfig).end_hour = (b2.headD junkConfig).start_hour) :
    (findMinDiffIdx (b1 :: b2 :: rest) i none).isSome = true := by
  simp only [findMinDiffIdx]
  rw [if_pos hc]
  exact findMinDiffIdx_some (b2 :: rest) (i + 1) _

theorem findMinDiffIdx_bound : ∀ (l : List (List IntelligentThresholdConfig)) (i : ℕ)
    (best : Option (ℕ × ℚ)),
    (∀ j d, best = some (j, d) → j + 1 < i + l.length) →
    ∀ j d, findMinDiffIdx l i best = some (j, d) → j + 1 < i + l.length := by
  intro l
  induction l with
  | nil => intro i best hb j d h; exact hb j d h
  | cons b1 l2 ih =>
    intro i best hb j d h
    cases l2 with
    | nil => exact hb j d h
    | cons b2 rest =>
      rcases best with _ | ⟨jp, dp⟩
      · simp only [findMinDiffIdx] at h
        have hres := ih (i + 1) _ ?_ j d h
        · simp only [List.length_cons] at hres ⊢
          omega
        · intro j2 d2 h2
          simp only [List.length_cons] at hb ⊢
          by_cases hc : (b1.getLastD junkConfig).end_hour = (b2.headD junkConfig).start_hour
          · rw [if_pos hc] at h2
            simp only [Option.some.injEq, Prod.mk.injEq] at h2
            obtain ⟨h2a, -⟩ := h2
            omega
          · rw [if_neg hc] at h2
            simp at h2
      · simp only [findMinDiffIdx] at h
        have hres := ih (i + 1) _ ?_ j d h
        · simp only [List.length_cons] at hres ⊢
          omega
        · intro j2 d2 h2
          simp only [List.length_cons] at hb ⊢
          by_cases hc : (b1.getLastD junkConfig).end_hour = (b2.headD junkConfig).start_hour
          · rw [if_pos hc] at h2
            by_cases hd : calculate_merge_difference (b1.getLastD junkConfig)
                (b2.headD junkConfig) < dp
            · rw [if_pos hd] at h2
              simp only [Option.some.injEq, Prod.mk.injEq] at h2
              obtain ⟨h2a, -⟩ := h2
              omega
            · rw [if_neg hd] at h2
              have := hb j2 d2 h2
              omega
          · rw [if_neg hc] at h2
            have := hb j2 d2 h2
            omega

theorem headD_append_of_ne_nil (b2 xs : List IntelligentThresholdConfig) (h : b2 ≠ []) :
    (b2 ++ xs).headD junkConfig = b2.headD junkConfig := by
  cases b2 with
  | nil => exact absurd rfl h
  | cons c l => rfl

theorem groups_chain_contiguous (b1 b2 : List IntelligentThresholdConfig)
    (rest : List (List IntelligentThresholdConfig)) (a b : ℚ)
    (h1 : b1 ≠ []) (h2 : b2 ≠ [])
    (hch : ChainFrom a b ((b1 :: b2 :: rest).flatten)) :
    (b1.getLastD junkConfig).end_hour = (b2.headD junkConfig).start_hour := by
  have hch2 : ChainFrom a b (b1 ++ (b2 ++ rest.flatten)) := hch
  obtain ⟨m, hm1, hm2⟩ := chainFrom_append_split b1 (b2 ++ rest.flatten) a b hch2
  have hne : b2 ++ rest.flatten ≠ [] := by
    cases b2 with
    | nil => exact absurd rfl h2
    | cons c l => simp
  rw [chainFrom_last b1 junkConfig a m hm1 h1,
    ← chainFrom_head (b2 ++ rest.flatten) m b hm2 hne, headD_append_of_ne_nil b2 rest.flatten h2]

theorem hierLoop_spec (maxB : ℕ) (hmb : 1 ≤ maxB) (a b : ℚ) :
    ∀ (fuel : ℕ) (blocks : List (List IntelligentThresholdConfig)),
    (∀ g ∈ blocks, g ≠ []) → ChainFrom a b blocks.flatten →
    blocks.length ≤ fuel + maxB →
    ((∀ g ∈ hierLoop maxB fuel blocks, g ≠ []) ∧
      ChainFrom a b (hierLoop maxB fuel blocks).flatten ∧
      (hierLoop maxB fuel blocks).length ≤ maxB) := by
  intro fuel
  induction fuel with
  | zero =>
    intro blocks hne hch hlen
    exact ⟨hne, hch, by simpa using hlen⟩
  | succ fuel ih =>
    intro blocks hne hch hlen
    simp only [hierLoop]
    by_cases hb : blocks.length ≤ maxB
    · rw [if_pos hb]
      exact ⟨hne, hch, hb⟩
    · rw [if_neg hb]
      have h2 : 2 ≤ blocks.length := by omega
      rcases blocks with _ | ⟨b1, _ | ⟨b2, rest⟩⟩
      · exact absurd h2 (by simp)
      · exact absurd h2 (by simp)
      · have hcont := groups_chain_contiguous b1 b2 rest a b
          (hne b1 (by simp)) (hne b2 (by simp)) hch
        obtain ⟨⟨j, d⟩, hjd⟩ := Option.isSome_iff_exists.mp
          (findMinDiffIdx_isSome_of_contiguous b1 b2 rest 0 hcont)
        rw [hjd]
        have hjb : j + 1 < 0 + (b1 :: b2 :: rest).length :=
          findMinDiffIdx_bound _ 0 none (fun j2 d2 hx => by cases hx) j d hjd
        have hlen2 := mergeAdjacentAt_length (b1 :: b2 :: rest) j (by omega)
        exact ih (mergeAdjacentAt (b1 :: b2 :: rest) j)
          (mergeAdjacentAt_nonempty _ j hne)
          (by rw [mergeAdjacentAt_join]; exact hch)
          (by simp only [List.length_cons] at hlen hlen2 ⊢; omega)

theorem join_map_singleton : ∀ (l : List IntelligentThresholdConfig),
    (l.map (fun t => [t])).flatten = l := by
  intro l
  induction l with
  | nil => rfl
  | cons c l2 ih => simp only [List.map_cons, List.flatten_cons, List.singleton_append,
      List.cons.injEq, ih, and_self]

theorem groups_merge_chain : ∀ (blocks : List (List IntelligentThresholdConfig)) (a b : ℚ),
    (∀ g ∈ blocks, g ≠ []) → ChainFrom a b blocks.flatten →
    ChainFrom a b (blocks.map merge_threshold_configs) := by
  intro blocks
  induction blocks with
  | nil => intro a b _ h; exact h
  | cons g gs ih =>
    intro a b hne hch
    have hg : g ≠ [] := hne g (by simp)
    obtain ⟨m, hm1, hm2⟩ := chainFrom_append_split g gs.flatten a b hch
    refine ⟨?_, ?_, ?_⟩
    · rw [merge_configs_start g hg]
      exact chainFrom_head g a m hm1 hg
    · rw [merge_configs_start g hg, chainFrom_head g a m hm1 hg,
        merge_configs_end g hg, chainFrom_last g junkConfig a m hm1 hg]
      exact chainFrom_lt g a m hm1 hg
    · rw [merge_configs_end g hg, chainFrom_last g junkConfig a m hm1 hg]
      exact ih m b (fun g2 hm => hne g2 (by simp [hm])) hm2

theorem hierarchical_merge_spec (maxB : ℕ) (hmb : 1 ≤ maxB)
    (l : List IntelligentThresholdConfig) (a b : ℚ) (hch : ChainFrom a b l) :
    ChainFrom a b (hierarchical_merge_thresholds l maxB) ∧
      (hierarchical_merge_thresholds l maxB).length ≤ maxB := by
  unfold hierarchical_merge_thresholds
  by_cases hl : l.length ≤ maxB
  · rw [if_pos hl]
    exact ⟨hch, hl⟩
  · rw [if_neg hl]
    have hne : ∀ g ∈ l.map (fun t => [t]), g ≠ [] := by
      intro g hg
      obtain ⟨t, -, rfl⟩ := List.mem_map.mp hg
      simp
    have hspec := hierLoop_spec maxB hmb a b l.length (l.map (fun t => [t])) hne
      (by rw [join_map_singleton]; exact hch)
      (by simp)
    exact ⟨groups_merge_chain _ a b hspec.1 hspec.2.1,
      by simpa using hspec.2.2⟩

/-- Master lemma for C2/C8: when every block carries a bound and the sorted
input tiles `[a, b]`, the C3 merger returns a tiling of `[a, b]` with at most
`maxBlocks` blocks. -/
theorem merge_continuous_thresholds_spec (maxB : ℕ) (hmb : 1 ≤ maxB)
    (l : List IntelligentThresholdConfig) (a b : ℚ)
    (hvalid : ∀ c ∈ l, (c.upper_bound.isSome || c.lower_bound.isSome) = true)
    (hch : ChainFrom a b (l.insertionSort leStart)) :
    ChainFrom a b (merge_continuous_thresholds maxB l) ∧
      (merge_continuous_thresholds maxB l).length ≤ maxB := by
  have hfilter : l.filter (fun t => t.upper_bound.isSome || t.lower_bound.isSome) = l :=
    List.filter_eq_self.mpr hvalid
  simp only [merge_continuous_thresholds]
  rw [hfilter]
  by_cases hl : l.length ≤ 1
  · rw [if_pos hl]
    have hsid : l.insertionSort leStart = l := by
      match l, hl with
      | [], _ => rfl
      | [x], _ => rfl
    rw [hsid] at hch
    exact ⟨hch, by omega⟩
  · rw [if_neg hl]
    have hlen : (l.insertionSort leStart).length = l.length :=
      (List.perm_insertionSort leStart l).length_eq
    obtain ⟨x, xs, hsort⟩ : ∃ x xs, l.insertionSort leStart = x :: xs := by
      cases hcase : l.insertionSort leStart with
      | nil =>
        rw [hcase] at hlen
        simp at hlen
        omega
      | cons x xs => exact ⟨x, xs, rfl⟩
    rw [hsort] at hch
    rw [hsort]
    show ChainFrom a b (if maxB < (greedyGo [x] xs).length then
        hierarchical_merge_thresholds (greedyGo [x] xs) maxB else greedyGo [x] xs) ∧
      (if maxB < (greedyGo [x] xs).length then
        hierarchical_merge_thresholds (greedyGo [x] xs) maxB else greedyGo [x] xs).length ≤ maxB
    have hgr : ChainFrom a b (greedyGo [x] xs) :=
      greedyGo_chain xs [x] a x.end_hour b (by simp) ⟨hch.1, hch.2.1, rfl⟩ hch.2.2
    by_cases hml : maxB < (greedyGo [x] xs).length
    · rw [if_pos hml]
      exact hierarchical_merge_spec maxB hmb _ a b hgr
    · rw [if_neg hml]
      exact ⟨hgr, by omega⟩

/-- C8 counterexample: nine blocks none of which carries a bound are returned
*untouched* by the C3 merger (`len(valid_thresholds) <= 1` returns the original
list), so the output keeps 9 > 8 blocks — refuting "for every input list". -/
theorem C8_counterexample :
    (merge_continuous_thresholds 8
      [⟨0, 1, none, none, 1⟩, ⟨1, 2, none, none, 1⟩, ⟨2, 3, none, none, 1⟩,
       ⟨3, 4, none, none, 1⟩, ⟨4, 5, none, none, 1⟩, ⟨5, 6, none, none, 1⟩,
       ⟨6, 7, none, none, 1⟩, ⟨7, 8, none, none, 1⟩,
       ⟨8, 9, none, none, 1⟩]).length = 9 ∧
      ¬ (merge_continuous_thresholds 8
      [⟨0, 1, none, none, 1⟩, ⟨1, 2, none, none, 1⟩, ⟨2, 3, none, none, 1⟩,
       ⟨3, 4, none, none, 1⟩, ⟨4, 5, none, none, 1⟩, ⟨5, 6, none, none, 1⟩,
       ⟨6, 7, none, none, 1⟩, ⟨7, 8, none, none, 1⟩,
       ⟨8, 9, none, none, 1⟩]).length ≤ 8 := by
  decide

/-- C8 (amended): for every input list of threshold blocks in which every
block carries at least one bound and whose sort by `start_hour` tiles an
interval `[a, b]`, the list returned by the C3 merger (greedy merge followed
by the hierarchical merge) has length at most `maxBlocks` (default 8),
provided `maxBlocks ≥ 1`. -/
theorem C8_block_cap (maxBlocks : ℕ) (hmb : 1 ≤ maxBlocks)
    (l : List IntelligentThresholdConfig) (a b : ℚ)
    (hvalid : ∀ c ∈ l, (c.upper_bound.isSome || c.lower_bound.isSome) = true)
    (hch : ChainFrom a b (l.insertionSort leStart)) :
    (merge_continuous_thresholds maxBlocks l).length ≤ maxBlocks :=
  (merge_continuous_thresholds_spec maxBlocks hmb l a b hvalid hch).2

/-- C8 witness: the amended cap applied to nine bound-carrying one-hour blocks
tiling `[0, 9]` with `maxBlocks = 8`. -/
theorem C8_block_cap_witness :
    (merge_continuous_thresholds 8
      [⟨0, 1, some 10, none, 1⟩, ⟨1, 2, some 10, none, 1⟩, ⟨2, 3, some 10, none, 1⟩,
       ⟨3, 4, some 10, none, 1⟩, ⟨4, 5, some 10, none, 1⟩, ⟨5, 6, some 10, none, 1⟩,
       ⟨6, 7, some 10, none, 1⟩, ⟨7, 8, some 10, none, 1⟩,
       ⟨8, 9, some 10, none, 1⟩]).length ≤ 8 :=
  C8_block_cap 8 (by decide)
    [⟨0, 1, some 10, none, 1⟩, ⟨1, 2, some 10, none, 1⟩, ⟨2, 3, some 10, none, 1⟩,
     ⟨3, 4, some 10, none, 1⟩, ⟨4, 5, some 10, none, 1⟩, ⟨5, 6, some 10, none, 1⟩,
     ⟨6, 7, some 10, none, 1⟩, ⟨7, 8, some 10, none, 1⟩,
     ⟨8, 9, some 10, none, 1⟩] 0 9 (by decide) (by decide)

/-! ### Time-split driver produces a tiling of `[0, 24]` -/

theorem buildSplitRows_forall2 (f : ℕ → Except Unit SplitRow) :
    ∀ (idxs : List ℕ) (rows : List SplitRow), buildSplitRows f idxs = .ok rows →
    List.Forall₂ (fun i r => f i = .ok r) idxs rows := by
  intro idxs
  induction idxs with
  | nil =>
    intro rows h
    simp only [buildSplitRows, Except.ok.injEq] at h
    subst h
    exact List.Forall₂.nil
  | cons i is ih =>
    intro rows h
    simp only [buildSplitRows] at h
    split at h
    · exact absurd h (by simp)
    · rename_i row heq
      split at h
      · exact absurd h (by simp)
      · rename_i rest heq2
        simp only [Except.ok.injEq] at h
        subst h
        exact List.Forall₂.cons heq (ih rest heq2)

theorem splitRowOf_time_index (tzOffset : ℤ) (ranges : List (ℚ × ℚ)) (ts vs : List ℚ)
    (dws : ℤ) (awa : Bool) (mn mx nt : Option ℚ) (mtl : ℤ) (dir : Direction) (sens : ℚ)
    (i : ℕ) (row : SplitRow)
    (h : splitRowOf tzOffset ranges ts vs dws awa mn mx nt mtl dir sens i =
      Except.ok row) : row.time_index = i := by
  unfold splitRowOf at h
  split at h
  · simp only [Except.ok.injEq] at h
    subst h
    rfl
  · split at h
    · exact absurd h (by simp)
    · split at h
      · exact absurd h (by simp)
      · simp only [Except.ok.injEq] at h
        subst h
        rfl

theorem forall2_map_eq {α β : Type} (g : β → α) : ∀ (l : List α) (m : List β),
    List.Forall₂ (fun i r => g r = i) l m → m.map g = l := by
  intro l m h
  induction h with
  | nil => rfl
  | cons h1 _ ih => simp only [List.map_cons, h1, ih]

theorem enumFrom_map_snd {α β : Type} (g : α → β) : ∀ (l : List α) (k : ℕ),
    (List.enumFrom k l).map (fun p => g p.2) = l.map g := by
  intro l
  induction l with
  | nil => intro k; rfl
  | cons x xs ih => intro k; simp only [List.enumFrom, List.map_cons, ih (k + 1)]

/-- Projecting the `(start_hour, end_hour)` pairs through the
group→config conversion and the per-range row→group construction recovers
`ranges[row.time_index]` for each ranked row. -/
theorem map_pair_enum (w : ℤ) (rs : List (ℚ × ℚ)) (dir : Direction) :
    ∀ (srows : List SplitRow) (k : ℕ),
    (threshold_groups_to_configs w ((List.enumFrom k srows).map (fun p =>
      ({ start_hour := (rs.getD p.2.time_index (0, 0)).1
         end_hour := (rs.getD p.2.time_index (0, 0)).2
         upper_bound :=
           if dir = Direction.up then (if p.1 = 0 then p.2.thr else p.2.thr0) else none
         lower_bound :=
           if dir = Direction.down then (if p.1 = 0 then p.2.thr else p.2.thr0) else none
         window_size := if p.1 = 0 then p.2.ws else p.2.ws0 } : ThresholdGroup)))).map
      (fun c => (c.start_hour, c.end_hour)) =
    srows.map (fun r => rs.getD r.time_index (0, 0)) := by
  intro srows
  induction srows with
  | nil => intro k; rfl
  | cons x xs ih =>
    intro k
    simp only [List.enumFrom, threshold_groups_to_configs, List.map_cons] at ih ⊢
    rw [ih (k + 1)]

/-- Any ranking of the four per-range rows yields, after conversion and
sorting by `start_hour`, a tiling of `[0, 24]` by the four default ranges. -/
theorem chain_of_rows (srows : List SplitRow) (dir : Direction) (w : ℤ)
    (hmapsr : (srows.map (fun r => r.time_index)).Perm (List.range 4)) :
    ChainFrom 0 24 ((threshold_groups_to_configs w
      ((List.enumFrom 0 srows).map (fun p =>
        ({ start_hour := (default_time_split_ranges.getD p.2.time_index (0, 0)).1
           end_hour := (default_time_split_ranges.getD p.2.time_index (0, 0)).2
           upper_bound :=
             if dir = Direction.up then (if p.1 = 0 then p.2.thr else p.2.thr0) else none
           lower_bound :=
             if dir = Direction.down then (if p.1 = 0 then p.2.thr else p.2.thr0) else none
           window_size := if p.1 = 0 then p.2.ws else p.2.ws0 } :
          ThresholdGroup)))).insertionSort leStart) := by
  refine chainFrom_of_rangesOf _ [((0 : ℚ), (6 : ℚ)), (6, 12), (12, 18), (18, 24)] 0 24
    ?_ (by decide)
  refine pairs_sorted_perm_eq _ _ ?_ ?_ (by decide) (by decide)
  · refine ((List.perm_insertionSort leStart _).map _).trans ?_
    rw [map_pair_enum w default_time_split_ranges dir srows 0]
    have h := hmapsr.map (fun j => default_time_split_ranges.getD j (0, 0))
    rw [List.map_map] at h
    have h4 : (List.range 4).map (fun j => default_time_split_ranges.getD j (0, 0)) =
        [((0 : ℚ), (6 : ℚ)), (6, 12), (12, 18), (18, 24)] := by decide
    exact h.trans (by rw [h4])
  · exact List.pairwise_map.mpr
      (List.Pairwise.imp (fun h => h) (List.sorted_insertionSort leStart _))

/-- The groups returned by `_process_time_split_periods` with the default
four ranges, once converted to configs and sorted by `start_hour`, tile
`[0, 24]`. -/
theorem process_time_split_chain (tzOffset : ℤ) (ts vs : List ℚ) (dws : ℤ) (awa : Bool)
    (mn mx nt : Option ℚ) (mtl : ℤ) (dir : Direction) (sens : ℚ)
    (groups : List ThresholdGroup) (w : ℤ)
    (hgroups : process_time_split_periods tzOffset default_time_split_ranges ts vs dws
      awa mn mx nt mtl dir sens = Except.ok groups) :
    ChainFrom 0 24 ((threshold_groups_to_configs w groups).insertionSort leStart) := by
  unfold process_time_split_periods at hgroups
  split at hgroups
  · exact absurd hgroups (by simp)
  · rename_i rows heq
    simp only [Except.ok.injEq] at hgroups
    subst hgroups
    have hf2 := buildSplitRows_forall2 _ _ _ heq
    have hti : List.Forall₂ (fun i r => r.time_index = i)
        (List.range default_time_split_ranges.length) rows :=
      hf2.imp (fun i r h =>
        splitRowOf_time_index tzOffset default_time_split_ranges ts vs dws awa mn mx nt
          mtl dir sens i r h)
    have hmap : rows.map (fun r => r.time_index) =
        List.range default_time_split_ranges.length :=
      forall2_map_eq _ _ _ hti
    have hmapsr : ((rows.insertionSort geRatio).map (fun r => r.time_index)).Perm
        (List.range 4) := by
      have hp := (List.perm_insertionSort geRatio rows).map (fun r => r.time_index)
      rw [hmap] at hp
      exact hp
    exact chain_of_rows (rows.insertionSort geRatio) dir w hmapsr

/-- C2 counterexample: with data only in the ranges `[6,12)` and `[12,18)`,
the two insufficient ranges produce bound-less blocks, the merger's
`len(valid_thresholds) <= 1`-filter drops them, and the pipeline returns the
single nonempty block `[6, 18]` — which does not tile `[0, 24]`. -/
theorem C2_counterexample :
    time_split_pipeline 0 default_time_split_ranges [21600, 25200, 43200, 46800]
        [10, 10, 10, 10] 9 true none none none 4 Direction.up (1/2) 8 =
      Except.ok [⟨6, 18, some 12, none, 9⟩] ∧
    ¬ ChainFrom 0 24 [(⟨6, 18, some 12, none, 9⟩ : IntelligentThresholdConfig)] := by
  decide

/-- C2 (amended): for every run of the C2→C3 pipeline with the default four
time-split ranges in which every returned group carries a bound (no range was
insufficient), the merged block list is non-empty, tiles `[0, 24]`
(`ChainFrom 0 24`: consecutive blocks share endpoints, so they are pairwise
disjoint and their union is exactly `[0, 24]`), and is strictly ordered by
`start_hour`. -/
theorem C2_block_coverage (tzOffset : ℤ) (ts vs : List ℚ) (dws : ℤ) (awa : Bool)
    (mn mx nt : Option ℚ) (mtl : ℤ) (dir : Direction) (sens : ℚ) (maxBlocks : ℕ)
    (hmb : 1 ≤ maxBlocks) (groups : List ThresholdGroup)
    (hgroups : process_time_split_periods tzOffset default_time_split_ranges ts vs dws
      awa mn mx nt mtl dir sens = Except.ok groups)
    (hbounds : ∀ g ∈ groups, (g.upper_bound.isSome || g.lower_bound.isSome) = true) :
    time_split_pipeline tzOffset default_time_split_ranges ts vs dws awa mn mx nt mtl
        dir sens maxBlocks =
      Except.ok (merge_continuous_thresholds maxBlocks
        (threshold_groups_to_configs dws groups)) ∧
    merge_continuous_thresholds maxBlocks (threshold_groups_to_configs dws groups) ≠ [] ∧
    ChainFrom 0 24
      (merge_continuous_thresholds maxBlocks (threshold_groups_to_configs dws groups)) ∧
    ((merge_continuous_thresholds maxBlocks
      (threshold_groups_to_configs dws groups)).map (fun c => c.start_hour)).Pairwise
      (· < ·) := by
  have hchain := process_time_split_chain tzOffset ts vs dws awa mn mx nt mtl dir sens
    groups dws hgroups
  have hvalid : ∀ c ∈ threshold_groups_to_configs dws groups,
      (c.upper_bound.isSome || c.lower_bound.isSome) = true := by
    intro c hc
    simp only [threshold_groups_to_configs, List.mem_map] at hc
    obtain ⟨g, hg, rfl⟩ := hc
    exact hbounds g hg
  have hspec := merge_continuous_thresholds_spec maxBlocks hmb _ 0 24 hvalid hchain
  refine ⟨?_, ?_, hspec.1, ?_⟩
  · unfold time_split_pipeline
    rw [hgroups]
    rfl
  · intro h0
    have hc0 := hspec.1
    rw [h0] at hc0
    exact absurd hc0 (by decide)
  · exact List.pairwise_map.mpr (chainFrom_pairwise_blocks _ 0 24 hspec.1)

/-- C2 witness: eight points covering all four default ranges make every
range sufficient; the amended coverage theorem applies and the merged output
tiles `[0, 24]`. -/
theorem C2_block_coverage_witness :
    ChainFrom 0 24 (merge_continuous_thresholds 8 (threshold_groups_to_configs 9
      [⟨0, 6, some 12, none, some 9⟩, ⟨6, 12, some 12, none, some 9⟩,
       ⟨12, 18, some 12, none, some 9⟩, ⟨18, 24, some 12, none, some 9⟩])) :=
  (C2_block_coverage 0 [3600, 7200, 21600, 25200, 43200, 46800, 64800, 68400]
    [10, 10, 10, 10, 10, 10, 10, 10] 9 true none none none 4 Direction.up (1/2) 8
    (by decide)
    [⟨0, 6, some 12, none, some 9⟩, ⟨6, 12, some 12, none, some 9⟩,
     ⟨12, 18, some 12, none, some 9⟩, ⟨18, 24, some 12, none, some 9⟩]
    (by decide) (by decide)).2.2.1

/-! ### The C3 merger is the identity on pairwise non-mergeable blocks -/

theorem greedyGo_no_merge : ∀ (rest : List IntelligentThresholdConfig)
    (y : IntelligentThresholdConfig),
    List.Chain' (fun u v => can_merge_threshold_configs [u, v] = false) (y :: rest) →
    greedyGo [y] rest = y :: rest := by
  intro rest
  induction rest with
  | nil => intro y _; rfl
  | cons z zs ih =>
    intro y hch
    obtain ⟨hyz, hch2⟩ := List.chain'_cons.mp hch
    simp only [greedyGo]
    by_cases hcont : (([y] : List IntelligentThresholdConfig).getLastD junkConfig).end_hour =
        z.start_hour
    · rw [if_pos hcont, if_neg (by simp [hyz]), ih z hch2]
      rfl
    · rw [if_neg hcont, ih z hch2]
      rfl

/-- The C3 merger leaves a list untouched when every block carries a bound,
the list is already sorted, no two adjacent blocks are 10%-mergeable and its
length fits within the cap. -/
theorem merge_continuous_no_merge (maxB : ℕ) (l : List IntelligentThresholdConfig)
    (hvalid : ∀ c ∈ l, (c.upper_bound.isSome || c.lower_bound.isSome) = true)
    (hsorted : l.Pairwise leStart)
    (hnm : List.Chain' (fun x y => can_merge_threshold_configs [x, y] = false) l)
    (hlen2 : 2 ≤ l.length) (hmaxb : l.length ≤ maxB) :
    merge_continuous_thresholds maxB l = l := by
  have hfilter : l.filter (fun t => t.upper_bound.isSome || t.lower_bound.isSome) = l :=
    List.filter_eq_self.mpr hvalid
  simp only [merge_continuous_thresholds]
  rw [hfilter]
  rw [if_neg (by omega)]
  rw [List.Sorted.insertionSort_eq hsorted]
  obtain ⟨x, xs, rfl⟩ : ∃ x xs, l = x :: xs := by
    cases l with
    | nil => simp at hlen2
    | cons x xs => exact ⟨x, xs, rfl⟩
  show (if maxB < (greedyGo [x] xs).length then
      hierarchical_merge_thresholds (greedyGo [x] xs) maxB else greedyGo [x] xs) = x :: xs
  rw [greedyGo_no_merge xs x hnm]
  rw [if_neg (by omega)]

/-- C9 counterexample: up is consolidated (`[0,24], upper=80`) and down has
four blocks with lower bounds `100, 101, 102, 103`; the broadcast produces
four blocks, but the trailing `merge_metric_threshold_results` re-merge
collapses them (all bounds within 10%) into a single `[0,24]` block — not
"one block per block of the non-consolidated side". -/
theorem C9_counterexample :
    merge_threshold_results 8
        [⟨"m", [], "k", [⟨0, 24, some 80, none, 5⟩], "Success", ""⟩]
        [⟨"m", [], "k", [⟨0, 6, none, some 100, 5⟩, ⟨6, 12, none, some 101, 5⟩,
          ⟨12, 18, none, some 102, 5⟩, ⟨18, 24, none, some 103, 5⟩], "Success", ""⟩] =
      [⟨"m", [], "k", [⟨0, 24, some 80, some 100, 5⟩], "Success", ""⟩] ∧
    ¬ merge_threshold_results 8
        [⟨"m", [], "k", [⟨0, 24, some 80, none, 5⟩], "Success", ""⟩]
        [⟨"m", [], "k", [⟨0, 6, none, some 100, 5⟩, ⟨6, 12, none, some 101, 5⟩,
          ⟨12, 18, none, some 102, 5⟩, ⟨18, 24, none, some 103, 5⟩], "Success", ""⟩] =
      [⟨"m", [], "k", [⟨0, 6, some 80, some 100, 5⟩, ⟨6, 12, some 80, some 101, 5⟩,
        ⟨12, 18, some 80, some 102, 5⟩, ⟨18, 24, some 80, some 103, 5⟩],
        "Success", ""⟩] := by
  decide

/-- C9 (amended): in the `direction=both` merge, when both sides of a key
succeeded, the up side is consolidated (a single block `[0,24]` carrying an
upper bound) and the down side has at least two blocks sorted by
`start_hour`, the merged result broadcasts the consolidated upper bound over
every down block (keeping that block's hours, lower bound and window size) —
*provided* the broadcast blocks survive the final re-merge, i.e. adjacent
broadcast blocks are pairwise non-mergeable and the count fits in
`maxBlocks`. -/
theorem C9_consolidated_broadcast (u d : MetricThresholdResult)
    (ub : IntelligentThresholdConfig) (maxBlocks : ℕ)
    (hu_thr : u.thresholds = [ub]) (hstart : ub.start_hour = 0)
    (hend : ub.end_hour = 24) (hub : ub.upper_bound.isSome = true)
    (hu_st : u.status = "Success") (hd_st : d.status = "Success")
    (hkey : d.unique_key = u.unique_key) (hlen2 : 2 ≤ d.thresholds.length)
    (hsorted : d.thresholds.Pairwise leStart)
    (broadcast : List IntelligentThresholdConfig)
    (hbr : broadcast = broadcastOf ub.upper_bound d.thresholds)
    (hnm : List.Chain' (fun x y => can_merge_threshold_configs [x, y] = false) broadcast)
    (hmaxb : broadcast.length ≤ maxBlocks) :
    merge_threshold_results maxBlocks [u] [d] =
      [{ name := u.name, labels := u.labels, unique_key := u.unique_key,
         thresholds := broadcast, status := "Success", error_message := "" }] := by
  subst hbr
  have hupc : isConsolidated [ub] = true := by
    simp [isConsolidated, hstart, hend]
  have hdnc : isConsolidated d.thresholds = false := by
    have hne1 : d.thresholds.length ≠ 1 := by omega
    simp [isConsolidated, hne1]
  have hboth : mergeBothThresholds u.thresholds d.thresholds =
      broadcastOf ub.upper_bound d.thresholds := by
    rw [hu_thr]
    simp [mergeBothThresholds, broadcastOf, hupc, hdnc]
  have hvalidb : ∀ c ∈ broadcastOf ub.upper_bound d.thresholds,
      (c.upper_bound.isSome || c.lower_bound.isSome) = true := by
    intro c hc
    unfold broadcastOf at hc
    simp only [List.mem_map] at hc
    obtain ⟨t, -, rfl⟩ := hc
    simp [hub]
  have hsortedb : (broadcastOf ub.upper_bound d.thresholds).Pairwise leStart := by
    unfold broadcastOf
    exact List.pairwise_map.mpr (List.Pairwise.imp (fun h => h) hsorted)
  have hlenb : (broadcastOf ub.upper_bound d.thresholds).length =
      d.thresholds.length := by
    unfold broadcastOf
    exact List.length_map _ _
  have hmc := merge_continuous_no_merge maxBlocks (broadcastOf ub.upper_bound d.thresholds)
    hvalidb hsortedb hnm (by omega) hmaxb
  have hlook : lookupLastByKey [d] u.unique_key = some d := by
    simp [lookupLastByKey, hkey]
  have hmerge1 : mergeOneUpResult u (some d) =
      ({ name := u.name
         labels := u.labels
         unique_key := u.unique_key
         thresholds := mergeBothThresholds u.thresholds d.thresholds
         status := "Success"
         error_message := "" } : MetricThresholdResult) := by
    simp only [mergeOneUpResult]
    rw [if_neg (by simp [hu_st, hd_st])]
  have hdo : List.filter (fun down_result =>
      !(List.any [u] fun u2 => u2.unique_key == down_result.unique_key)) [d] = [] := by
    simp [hkey]
  simp only [merge_threshold_results, List.map_cons, List.map_nil]
  rw [hlook, hmerge1, hboth, hdo]
  simp only [List.append_nil, merge_metric_threshold_results, List.map_cons, List.map_nil]
  rw [hmc]

/-- C9 witness: the amended broadcast applied to a consolidated upper block
`[0,24] upper=80` and four down blocks with pairwise >10%-apart lower
bounds, which therefore survive the final re-merge. -/
theorem C9_consolidated_broadcast_witness :
    merge_threshold_results 8
        [⟨"m", [], "k", [⟨0, 24, some 80, none, 5⟩], "Success", ""⟩]
        [⟨"m", [], "k", [⟨0, 6, none, some 100, 5⟩, ⟨6, 12, none, some 200, 5⟩,
          ⟨12, 18, none, some 400, 5⟩, ⟨18, 24, none, some 800, 5⟩], "Success", ""⟩] =
      [⟨"m", [], "k", [⟨0, 6, some 80, some 100, 5⟩, ⟨6, 12, some 80, some 200, 5⟩,
        ⟨12, 18, some 80, some 400, 5⟩, ⟨18, 24, some 80, some 800, 5⟩],
        "Success", ""⟩] :=
  C9_consolidated_broadcast
    ⟨"m", [], "k", [⟨0, 24, some 80, none, 5⟩], "Success", ""⟩
    ⟨"m", [], "k", [⟨0, 6, none, some 100, 5⟩, ⟨6, 12, none, some 200, 5⟩,
      ⟨12, 18, none, some 400, 5⟩, ⟨18, 24, none, some 800, 5⟩], "Success", ""⟩
    ⟨0, 24, some 80, none, 5⟩ 8 rfl (by decide) (by decide) (by decide) rfl rfl rfl
    (by decide) (by decide)
    [⟨0, 6, some 80, some 100, 5⟩, ⟨6, 12, some 80, some 200, 5⟩,
     ⟨12, 18, some 80, some 400, 5⟩, ⟨18, 24, some 80, some 800, 5⟩]
    (by decide)
    (by simp only [List.chain'_cons, List.chain'_singleton, and_true]; decide)
    (by decide)

end Veaiops
